import Mathlib

/-!
Shallow embedding of the vote-tally engine of the online-voting-system
repository (src/pages/AdminPortal.tsx and the admin-portal variant in
src/unnamed/part_003), together with proofs about the claims on it.

The tally code lives in `getFinalVoteCounts` (AdminPortal.tsx lines 387-421,
and the batched variant part_003 lines 1580-1668), `fetchResults`
(AdminPortal.tsx lines 424-448; part_003 lines 1670-1712, which additionally
computes ranks and tie flags), and `handlePostResults`
(AdminPortal.tsx lines 833-864).

Modelling choices:
* The JS `Map` is modelled as an insertion-ordered association list:
  `set` on an existing key updates the value in place keeping its slot,
  `set` on a new key appends at the end, and `values()` iterates in
  insertion order, exactly as ECMAScript specifies.
* Each remote fetch (`supabase.from(...).select(...)`) delivers
  `Option (List _)`: `none` is a failed fetch (`data` null), `some l` a
  successful fetch of rows `l`.  The source checks `if (!candidatesData)`
  and uses `onlineVotes?.forEach` / `physicalVotes?.forEach`, which we model
  by matching on the option.
* A physical-ballot row's `votes` payload is either null (`none`), a value
  whose JSON decode throws (`malformed`), or a decoded position -> name
  object, modelled as the list of its (position, candidateName) entries in
  iteration order (`decodable`).  The `try { JSON.parse ...; for ... }
  catch` construct in the source turns a throwing payload into a no-op for
  that row only.
* The JS truthiness test `if (vote.candidate_id)` skips both null and the
  empty string, so the embedding skips `none` and `some ""`.
* `((votes / total) * 100)` is computed in floating point and rendered with
  `toFixed(1)`; the embedding keeps the exact rational value (the spec
  directs that the unrounded ratio is authoritative and rounding is
  presentation-only).
-/

set_option autoImplicit false

namespace Voting

/-- `Map.get` on an insertion-ordered association list: first binding wins
(keys are unique by construction of `mapSet`). -/
def mapGet {α : Type} (m : List (String × α)) (k : String) : Option α :=
  match m with
  | [] => none
  | (k', v) :: rest => if k' = k then some v else mapGet rest k

/-- `Map.set`: update in place if the key is present (keeping its insertion
slot), otherwise append the new binding at the end, as ECMAScript `Map.set`
does. -/
def mapSet {α : Type} (m : List (String × α)) (k : String) (v : α) :
    List (String × α) :=
  match m with
  | [] => [(k, v)]
  | (k', v') :: rest =>
      if k' = k then (k, v) :: rest else (k', v') :: mapSet rest k v

/-- A row of the `candidates` table (the fields the tally engine reads). -/
structure Candidate where
  id : String
  name : String
  position : String
  deriving DecidableEq, Repr

/-- A row of the `votes` table as selected by the engine
(`select('candidate_id')`); `candidate_id` may be null. -/
structure OnlineVote where
  candidate_id : Option String
  deriving DecidableEq, Repr

/-- The `votes` payload of a `physical_votes` row after the
`typeof pVote.votes === 'string' ? JSON.parse(pVote.votes) : pVote.votes`
step: either the decode throws (`malformed`), or it yields a
position -> candidateName object whose entries are iterated in order. -/
inductive PhysPayload where
  | malformed : PhysPayload
  | decodable : List (String × String) → PhysPayload
  deriving DecidableEq, Repr

/-- A row of the `physical_votes` table; the payload may be null. -/
structure PhysicalVote where
  votes : Option PhysPayload
  deriving DecidableEq, Repr

/-- The record returned by `getFinalVoteCounts`. -/
structure TallyOutput where
  candidates : List Candidate
  voteCounts : List (String × Nat)
  totalVotes : Nat
  deriving DecidableEq, Repr

/-- The composite join key `` `${position}_${name}` `` used by the source to
reconcile physical ballots with candidates. -/
def joinKey (position name : String) : String :=
  position ++ "_" ++ name

/-- `new Map(candidatesData.map(c => [`pos_name`, c.id]))`: later candidates
with the same (position, name) pair override earlier ones. -/
def candidateIdMap (candidatesData : List Candidate) :
    List (String × String) :=
  candidatesData.foldl (fun m c => mapSet m (joinKey c.position c.name) c.id) []

/-- `new Map(candidatesData.map(c => [c.id, 0]))`: every candidate's count
starts at 0. -/
def initVoteCounts (candidatesData : List Candidate) : List (String × Nat) :=
  candidatesData.foldl (fun m c => mapSet m c.id 0) []

/-- One iteration of the online-votes loop:
`if (vote.candidate_id) { voteCounts.set(id, (voteCounts.get(id) || 0) + 1) }`.
Note the `set` is unconditional once the id is truthy: a vote for an id that
is not a key of the map adds a fresh entry with count 1. -/
def countOnlineVote (m : List (String × Nat)) (vote : OnlineVote) :
    List (String × Nat) :=
  match vote.candidate_id with
  | none => m
  | some cid =>
      if cid = "" then m else mapSet m cid ((mapGet m cid).getD 0 + 1)

/-- The online-votes loop (`onlineVotes?.forEach`). -/
def countOnlineVotes (m : List (String × Nat)) (votes : List OnlineVote) :
    List (String × Nat) :=
  votes.foldl countOnlineVote m

/-- One (position, candidateName) entry of a decoded physical ballot:
resolved through `candidateIdMap`; unresolved entries are skipped. -/
def countPhysEntry (idMap : List (String × String)) (m : List (String × Nat))
    (e : String × String) : List (String × Nat) :=
  match mapGet idMap (joinKey e.1 e.2) with
  | none => m
  | some cid => mapSet m cid ((mapGet m cid).getD 0 + 1)

/-- The `for (const position in voteData)` loop over one decoded record. -/
def countPhysEntries (idMap : List (String × String))
    (m : List (String × Nat)) (entries : List (String × String)) :
    List (String × Nat) :=
  entries.foldl (countPhysEntry idMap) m

/-- One iteration of the physical-votes loop: a null payload is skipped by
`if (pVote.votes)`, a payload whose decode throws is caught and logged
(leaving the counts unchanged), a decoded record has each entry tallied. -/
def countPhysicalVote (idMap : List (String × String))
    (m : List (String × Nat)) (pv : PhysicalVote) : List (String × Nat) :=
  match pv.votes with
  | none => m
  | some PhysPayload.malformed => m
  | some (PhysPayload.decodable entries) => countPhysEntries idMap m entries

/-- The physical-votes loop (`physicalVotes?.forEach`). -/
def countPhysicalVotes (idMap : List (String × String))
    (m : List (String × Nat)) (pvs : List PhysicalVote) :
    List (String × Nat) :=
  pvs.foldl (countPhysicalVote idMap) m

/-- `Array.from(voteCounts.values()).reduce((sum, count) => sum + count, 0)`. -/
def sumValues (m : List (String × Nat)) : Nat :=
  (m.map (fun p => p.2)).sum

/-- `getFinalVoteCounts` (AdminPortal.tsx lines 387-421).  A null candidate
fetch returns the sentinel `{candidates: [], voteCounts: new Map(), totalVotes:
0}`; a null online- or physical-vote fetch merely skips that loop
(`data?.forEach`), so the remaining counts are still produced. -/
def getFinalVoteCounts (candidatesData : Option (List Candidate))
    (onlineVotes : Option (List OnlineVote))
    (physicalVotes : Option (List PhysicalVote)) : TallyOutput :=
  match candidatesData with
  | none => { candidates := [], voteCounts := [], totalVotes := 0 }
  | some cs =>
      let idMap := candidateIdMap cs
      let m0 := initVoteCounts cs
      let m1 := match onlineVotes with
        | none => m0
        | some vs => countOnlineVotes m0 vs
      let m2 := match physicalVotes with
        | none => m1
        | some ps => countPhysicalVotes idMap m1 ps
      { candidates := cs, voteCounts := m2, totalVotes := sumValues m2 }

/-- A candidate as it appears inside a position's result list, after the
`{...c, votes, percentage}` spread and the rank / tie enrichment passes of
the part_003 `fetchResults` (rank and isTied hold their pre-enrichment
defaults, 0 and false, until the corresponding pass runs). -/
structure ResultCandidate where
  id : String
  name : String
  position : String
  votes : Nat
  percentage : ℚ
  rank : Nat
  isTied : Bool
  deriving DecidableEq, Repr

/-- One element of the `formattedResults` array. -/
structure PositionResult where
  position : String
  totalVotes : Nat
  candidates : List ResultCandidate
  deriving DecidableEq, Repr

/-- `[...new Set(xs)]`: deduplicate keeping the first occurrence of each
element, in order of first appearance. -/
def dedupFirst : List String → List String
  | [] => []
  | x :: xs => x :: dedupFirst (xs.filter (fun y => y ≠ x))
termination_by l => l.length
decreasing_by
  simp only [List.length_cons]
  exact Nat.lt_succ_of_le (List.length_filter_le _ _)

/-- Insert one element into an already descending-by-votes list, in front of
the first element whose count is not strictly greater.  Folded from the
right this is a stable descending sort, the behaviour ECMAScript specifies
for `.sort((a, b) => b.votes - a.votes)`. -/
def insertByVotesDesc (c : ResultCandidate) :
    List ResultCandidate → List ResultCandidate
  | [] => [c]
  | d :: ds =>
      if c.votes < d.votes then d :: insertByVotesDesc c ds else c :: d :: ds

/-- Stable sort by descending vote count
(`.sort((a, b) => b.votes - a.votes)`). -/
def sortByVotesDesc (l : List ResultCandidate) : List ResultCandidate :=
  l.foldr insertByVotesDesc []

/-- The rank-assignment pass of part_003 `fetchResults` (lines 1692-1700):
`lastVotes` starts at -1 (never equal to a count), `currentRank` is reset to
`index + 1` whenever the count changes. -/
def assignRanksAux (lastVotes : Int) (currentRank : Nat) (index : Nat) :
    List ResultCandidate → List ResultCandidate
  | [] => []
  | c :: rest =>
      if (c.votes : Int) = lastVotes then
        { c with rank := currentRank } ::
          assignRanksAux lastVotes currentRank (index + 1) rest
      else
        { c with rank := index + 1 } ::
          assignRanksAux (c.votes : Int) (index + 1) (index + 1) rest

/-- `rankedCandidates` from `sortedCandidates`. -/
def assignRanks (l : List ResultCandidate) : List ResultCandidate :=
  assignRanksAux (-1) 0 0 l

/-- The tie-marking pass (part_003 lines 1702-1705):
`isTied = rankedCandidates.filter(o => o.votes === c.votes).length > 1 &&
c.votes > 0`. -/
def markTies (ranked : List ResultCandidate) : List ResultCandidate :=
  ranked.map (fun c =>
    { c with isTied :=
        decide (1 < (ranked.filter (fun o => o.votes = c.votes)).length ∧
          0 < c.votes) })

/-- `totalVotesForPosition`: the candidates of the position, their counts
summed (`reduce((sum, c) => sum + (voteCounts.get(c.id) || 0), 0)`). -/
def positionTotal (cs : List Candidate) (voteCounts : List (String × Nat))
    (pos : String) : Nat :=
  (cs.filter (fun c => c.position = pos)).foldl
    (fun sum c => sum + (mapGet voteCounts c.id).getD 0) 0

/-- The `{...c, votes, percentage}` spread for one candidate of a position
whose total is `total`. -/
def toResultCandidate (voteCounts : List (String × Nat)) (total : Nat)
    (c : Candidate) : ResultCandidate :=
  { id := c.id, name := c.name, position := c.position,
    votes := (mapGet voteCounts c.id).getD 0,
    percentage :=
      if 0 < total then
        (((mapGet voteCounts c.id).getD 0 : ℚ) / (total : ℚ)) * 100
      else 0,
    rank := 0, isTied := false }

/-- The list handed to `.sort((a, b) => b.votes - a.votes)`: the position's
candidates, in candidate-list order, with votes and percentage attached. -/
def positionSortInput (cs : List Candidate) (voteCounts : List (String × Nat))
    (pos : String) : List ResultCandidate :=
  (cs.filter (fun c => c.position = pos)).map
    (toResultCandidate voteCounts (positionTotal cs voteCounts pos))

/-- One entry of `formattedResults` for a fixed position: filter the
candidates, total their counts, attach votes and (exact, unrounded)
percentage, sort descending, rank, and mark ties. -/
def positionResult (cs : List Candidate) (voteCounts : List (String × Nat))
    (pos : String) : PositionResult :=
  { position := pos,
    totalVotes := positionTotal cs voteCounts pos,
    candidates :=
      markTies (assignRanks
        (sortByVotesDesc (positionSortInput cs voteCounts pos))) }

/-- `fetchResults` (part_003 lines 1670-1712; AdminPortal.tsx lines 424-448
is the same computation without the rank / isTied enrichment): group by
position in order of first appearance and build each position's result. -/
def fetchResults (candidatesData : Option (List Candidate))
    (onlineVotes : Option (List OnlineVote))
    (physicalVotes : Option (List PhysicalVote)) : List PositionResult :=
  let out := getFinalVoteCounts candidatesData onlineVotes physicalVotes
  if out.candidates = [] then []
  else
    (dedupFirst (out.candidates.map (fun c => c.position))).map
      (positionResult out.candidates out.voteCounts)

/-- One serialized candidate entry of an official-results snapshot
(`{ id, name, votes, percentage }`; the source rounds the percentage with
`parseFloat(percentage.toFixed(1))` for display, the exact ratio is kept
here). -/
structure OfficialEntry where
  id : String
  name : String
  votes : Nat
  percentage : ℚ
  deriving DecidableEq, Repr

/-- The `finalResults` object built by `handlePostResults`: for each distinct
position (in order of first appearance) the serialized entries of its
candidates, in candidate-list order. -/
def finalResults (cs : List Candidate) (voteCounts : List (String × Nat)) :
    List (String × List OfficialEntry) :=
  (dedupFirst (cs.map (fun c => c.position))).map (fun pos =>
    let candidatesForPosition := cs.filter (fun c => c.position = pos)
    let totalVotesForPosition :=
      candidatesForPosition.foldl
        (fun sum c => sum + (mapGet voteCounts c.id).getD 0) 0
    (pos, candidatesForPosition.map (fun c =>
      { id := c.id, name := c.name,
        votes := (mapGet voteCounts c.id).getD 0,
        percentage :=
          if 0 < totalVotesForPosition then
            (((mapGet voteCounts c.id).getD 0 : ℚ) /
              (totalVotesForPosition : ℚ)) * 100
          else 0 })))

/-- A row of the `official_results` table: a database-generated identity and
the posted payload.  Rows are only ever inserted, never updated. -/
structure Snapshot where
  sid : Nat
  results : List (String × List OfficialEntry)
  deriving DecidableEq, Repr

/-- `supabase.from('official_results').insert({ results: finalResults })`:
the store appends one new row under a fresh database-generated id and leaves
every existing row untouched. -/
def insertOfficial (store : List Snapshot)
    (r : List (String × List OfficialEntry)) : List Snapshot :=
  store ++ [{ sid := store.length, results := r }]

/-- `handlePostResults` (AdminPortal.tsx lines 833-864) past its confirmation
dialog: recompute the tally, throw if there are no candidates, serialize, and
insert exactly one new `official_results` row; no deduplication against
previously posted rows is performed.  Returns the updated store. -/
def handlePostResults (store : List Snapshot)
    (candidatesData : Option (List Candidate))
    (onlineVotes : Option (List OnlineVote))
    (physicalVotes : Option (List PhysicalVote)) :
    Except String (List Snapshot) :=
  let out := getFinalVoteCounts candidatesData onlineVotes physicalVotes
  if out.candidates = [] then
    Except.error "No candidates to post results for."
  else
    Except.ok (insertOfficial store (finalResults out.candidates out.voteCounts))

/-! ### Basic lemmas about the map model -/

theorem mapGet_mapSet {α : Type} (m : List (String × α)) (k k' : String)
    (v : α) :
    mapGet (mapSet m k v) k' = if k = k' then some v else mapGet m k' := by
  induction m with
  | nil =>
      by_cases h : k = k' <;> simp [mapGet, mapSet, h]
  | cons p rest ih =>
      obtain ⟨k₀, v₀⟩ := p
      by_cases h₀ : k₀ = k
      · subst h₀
        by_cases h : k₀ = k' <;> simp [mapGet, mapSet, h]
      · by_cases h : k₀ = k'
        · subst h
          have : ¬ k = k₀ := fun hc => h₀ hc.symm
          simp [mapGet, mapSet, h₀, this]
        · simp [mapGet, mapSet, h₀, h, ih]

theorem mapGet_foldl_mapSet_zero (cs : List Candidate)
    (m : List (String × Nat)) (k : String) :
    mapGet (cs.foldl (fun m c => mapSet m c.id 0) m) k =
      if k ∈ cs.map (fun c => c.id) then some 0 else mapGet m k := by
  induction cs generalizing m with
  | nil => simp
  | cons c rest ih =>
      simp only [List.foldl_cons, List.map_cons, List.mem_cons]
      rw [ih]
      by_cases hrest : k ∈ rest.map (fun c => c.id)
      · simp [hrest]
      · by_cases hc : k = c.id
        · simp [hrest, hc, mapGet_mapSet]
        · have : ¬ c.id = k := fun h => hc h.symm
          simp [hrest, hc, this, mapGet_mapSet]

/-- Every candidate's count starts at 0; ids outside the candidate list are
absent from the initial map. -/
theorem mapGet_initVoteCounts (cs : List Candidate) (k : String) :
    mapGet (initVoteCounts cs) k =
      if k ∈ cs.map (fun c => c.id) then some 0 else none := by
  simpa [initVoteCounts] using mapGet_foldl_mapSet_zero cs [] k

/-! ### Lemmas about `dedupFirst` -/

theorem mem_dedupFirst (xs : List String) (y : String) :
    y ∈ dedupFirst xs ↔ y ∈ xs := by
  induction xs using dedupFirst.induct with
  | case1 => simp [dedupFirst]
  | case2 x xs ih =>
      rw [dedupFirst]
      by_cases hy : y = x
      · simp [hy]
      · simp only [List.mem_cons, hy, false_or, ih, List.mem_filter,
          decide_eq_true_eq]
        exact ⟨fun h => h.1, fun h => ⟨h, hy⟩⟩

theorem dedupFirst_nodup (xs : List String) : (dedupFirst xs).Nodup := by
  induction xs using dedupFirst.induct with
  | case1 => simp [dedupFirst]
  | case2 x xs ih =>
      rw [dedupFirst, List.nodup_cons]
      refine ⟨fun hmem => ?_, ih⟩
      rw [mem_dedupFirst] at hmem
      simp at hmem

theorem dedupFirst_sublist (xs : List String) :
    List.Sublist (dedupFirst xs) xs := by
  induction xs using dedupFirst.induct with
  | case1 => simp [dedupFirst]
  | case2 x xs ih =>
      rw [dedupFirst]
      exact List.Sublist.cons₂ x (ih.trans (List.filter_sublist xs))

/-- Index of the first occurrence of `x` (length of the list if absent). -/
def firstIdx (x : String) : List String → Nat
  | [] => 0
  | y :: ys => if y = x then 0 else firstIdx x ys + 1

theorem firstIdx_filter_lt (p : String → Bool) (xs : List String)
    (a b : String) (ha : a ∈ xs.filter p) (hb : b ∈ xs.filter p)
    (hlt : firstIdx a (xs.filter p) < firstIdx b (xs.filter p)) :
    firstIdx a xs < firstIdx b xs := by
  induction xs with
  | nil => simp at ha
  | cons c rest ih =>
      by_cases hc : p c
      · rw [List.filter_cons_of_pos hc] at ha hb hlt
        simp only [firstIdx] at hlt
        by_cases hca : c = a
        · by_cases hcb : c = b
          · exfalso
            have hab : a = b := hca.symm.trans hcb
            rw [if_pos hca, if_pos hcb] at hlt
            exact Nat.lt_irrefl 0 hlt
          · simp only [firstIdx]
            rw [if_pos hca, if_neg hcb]
            omega
        · by_cases hcb : c = b
          · exfalso
            rw [if_neg hca, if_pos hcb] at hlt
            omega
          · rw [if_neg hca, if_neg hcb] at hlt
            simp only [firstIdx]
            rw [if_neg hca, if_neg hcb]
            have ha' : a ∈ rest.filter p := by
              rcases List.mem_cons.mp ha with h | h
              · exact absurd h.symm hca
              · exact h
            have hb' : b ∈ rest.filter p := by
              rcases List.mem_cons.mp hb with h | h
              · exact absurd h.symm hcb
              · exact h
            have := ih ha' hb' (by omega)
            omega
      · rw [List.filter_cons_of_neg hc] at ha hb hlt
        have hca : ¬ c = a := by
          intro h; subst h
          have := List.of_mem_filter ha
          exact hc this
        have hcb : ¬ c = b := by
          intro h; subst h
          have := List.of_mem_filter hb
          exact hc this
        simp only [firstIdx]
        rw [if_neg hca, if_neg hcb]
        have := ih ha hb hlt
        omega

/-- `dedupFirst` lists elements in order of first appearance. -/
theorem dedupFirst_pairwise_firstIdx (xs : List String) :
    (dedupFirst xs).Pairwise (fun a b => firstIdx a xs < firstIdx b xs) := by
  induction xs using dedupFirst.induct with
  | case1 => simp [dedupFirst]
  | case2 x xs ih =>
      rw [dedupFirst, List.pairwise_cons]
      constructor
      · intro b hb
        rw [mem_dedupFirst] at hb
        have hbne : ¬ x = b := by
          intro h; subst h; simp at hb
        simp [firstIdx, hbne]
      · refine List.Pairwise.imp_of_mem ?_ ih
        intro a b ha hb hlt
        rw [mem_dedupFirst] at ha hb
        have hxa : ¬ x = a := by
          intro h; subst h; simp at ha
        have hxb : ¬ x = b := by
          intro h; subst h; simp at hb
        have ha' : a ∈ xs.filter (fun y => decide (y ≠ x)) := by
          have := (List.mem_filter (p := fun y => decide (y ≠ x))).mpr
            ⟨(List.mem_filter.mp ha).1, (List.mem_filter.mp ha).2⟩
          exact ha
        have hb' : b ∈ xs.filter (fun y => decide (y ≠ x)) := hb
        have := firstIdx_filter_lt (fun y => decide (y ≠ x)) xs a b ha' hb' hlt
        simp only [firstIdx, hxa, hxb, if_false]
        omega

/-! ### Lemmas about the stable descending sort -/

theorem insertByVotesDesc_perm (c : ResultCandidate)
    (l : List ResultCandidate) :
    List.Perm (insertByVotesDesc c l) (c :: l) := by
  induction l with
  | nil => simp [insertByVotesDesc]
  | cons d ds ih =>
      rw [insertByVotesDesc]
      by_cases h : c.votes < d.votes
      · rw [if_pos h]
        exact (ih.cons d).trans (List.Perm.swap c d ds)
      · rw [if_neg h]

theorem sortByVotesDesc_perm (l : List ResultCandidate) :
    List.Perm (sortByVotesDesc l) l := by
  induction l with
  | nil => simp [sortByVotesDesc]
  | cons a t ih =>
      have : sortByVotesDesc (a :: t) = insertByVotesDesc a (sortByVotesDesc t) :=
        rfl
      rw [this]
      exact (insertByVotesDesc_perm a (sortByVotesDesc t)).trans (ih.cons a)

theorem insertByVotesDesc_pairwise (c : ResultCandidate)
    (l : List ResultCandidate)
    (h : l.Pairwise (fun a b => b.votes ≤ a.votes)) :
    (insertByVotesDesc c l).Pairwise (fun a b => b.votes ≤ a.votes) := by
  induction l with
  | nil => simp [insertByVotesDesc]
  | cons d ds ih =>
      rw [List.pairwise_cons] at h
      rw [insertByVotesDesc]
      by_cases hv : c.votes < d.votes
      · rw [if_pos hv, List.pairwise_cons]
        refine ⟨fun e he => ?_, ih h.2⟩
        rcases List.mem_cons.mp ((insertByVotesDesc_perm c ds).mem_iff.mp he)
          with he' | he'
        · subst he'; omega
        · exact h.1 e he'
      · rw [if_neg hv, List.pairwise_cons]
        refine ⟨fun e he => ?_, List.pairwise_cons.mpr h⟩
        rcases List.mem_cons.mp he with he' | he'
        · subst he'; omega
        · have := h.1 e he'
          omega

theorem sortByVotesDesc_pairwise (l : List ResultCandidate) :
    (sortByVotesDesc l).Pairwise (fun a b => b.votes ≤ a.votes) := by
  induction l with
  | nil => simp [sortByVotesDesc]
  | cons a t ih => exact insertByVotesDesc_pairwise a (sortByVotesDesc t) ih

/-- Stability, one insertion step: for any target count `v`, inserting `c`
either prepends `c` to the `v`-filtered list (when `c.votes = v`; everything
`c` is inserted behind has a strictly greater count) or leaves it unchanged. -/
theorem filter_insertByVotesDesc (c : ResultCandidate)
    (l : List ResultCandidate) (v : Nat) :
    (insertByVotesDesc c l).filter (fun d => decide (d.votes = v)) =
      if c.votes = v then c :: l.filter (fun d => decide (d.votes = v))
      else l.filter (fun d => decide (d.votes = v)) := by
  induction l with
  | nil =>
      by_cases hc : c.votes = v <;> simp [insertByVotesDesc, hc]
  | cons d ds ih =>
      rw [insertByVotesDesc]
      by_cases hlt : c.votes < d.votes
      · rw [if_pos hlt, List.filter_cons, List.filter_cons, ih]
        by_cases hc : c.votes = v
        · have hd : ¬ d.votes = v := by omega
          simp [hc, hd]
        · simp [hc]
      · rw [if_neg hlt, List.filter_cons, List.filter_cons]
        by_cases hc : c.votes = v
        · simp [hc]
        · simp [hc]

theorem filter_sortByVotesDesc (l : List ResultCandidate) (v : Nat) :
    (sortByVotesDesc l).filter (fun d => decide (d.votes = v)) =
      l.filter (fun d => decide (d.votes = v)) := by
  induction l with
  | nil => simp [sortByVotesDesc]
  | cons a t ih =>
      have hstep :
          sortByVotesDesc (a :: t) = insertByVotesDesc a (sortByVotesDesc t) :=
        rfl
      rw [hstep, filter_insertByVotesDesc]
      by_cases hc : a.votes = v
      · rw [if_pos hc, ih]
        simp [List.filter_cons, hc]
      · rw [if_neg hc, ih]
        simp [List.filter_cons, hc]

/-! ### Lemmas about rank assignment -/

/-- Invariant of the rank loop: once the walk has consumed `p ++ [e]` (with
`e` the most recent element, so `lastVotes = e.votes` and `index = p.length
+ 1`) and `currentRank` is the competition rank of `e`, the remaining
elements each receive `1 + (number of elements of the whole list with
strictly more votes)`, provided the whole list is weakly descending. -/
theorem assignRanksAux_closed (l : List ResultCandidate) :
    ∀ (p : List ResultCandidate) (e : ResultCandidate) (cr : Nat),
    (p ++ e :: l).Pairwise (fun a b => b.votes ≤ a.votes) →
    cr = 1 + (p ++ e :: l).countP (fun d => decide (e.votes < d.votes)) →
    assignRanksAux (e.votes : Int) cr (p.length + 1) l =
      l.map (fun c =>
        { c with rank :=
            1 + (p ++ e :: l).countP (fun d => decide (c.votes < d.votes)) }) := by
  induction l with
  | nil => intro p e cr _ _; rfl
  | cons c rest ih =>
      intro p e cr hs hrank
      have hli : p ++ e :: c :: rest = (p ++ [e]) ++ c :: rest := by simp
      have hlen : (p ++ [e]).length = p.length + 1 := by simp
      obtain ⟨hp, hecr, hcross⟩ := List.pairwise_append.mp (hli ▸ hs)
      have hce : c.votes ≤ e.votes := by
        have := List.pairwise_append.mp hs
        have h1 := this.2.1
        exact (List.pairwise_cons.mp h1).1 c (by simp)
      have hcrest : ∀ b ∈ rest, b.votes ≤ c.votes := by
        have := List.pairwise_append.mp hs
        have h1 := (List.pairwise_cons.mp this.2.1).2
        exact (List.pairwise_cons.mp h1).1
      simp only [assignRanksAux]
      by_cases hv : c.votes = e.votes
      · have hcast : (c.votes : Int) = (e.votes : Int) := by omega
        rw [if_pos hcast, List.map_cons]
        congr 1
        · rw [hrank, hv]
        · have hs' : ((p ++ [e]) ++ c :: rest).Pairwise
              (fun a b => b.votes ≤ a.votes) := hli ▸ hs
          have hrank' : cr =
              1 + ((p ++ [e]) ++ c :: rest).countP
                (fun d => decide (c.votes < d.votes)) := by
            rw [← hli, hv]; exact hrank
          have := ih (p ++ [e]) c cr hs' hrank'
          rw [hlen] at this
          rw [hv] at this
          rw [this, ← hli]
      · have hcast : ¬ ((c.votes : Int) = (e.votes : Int)) := by omega
        rw [if_neg hcast, List.map_cons]
        have hlt_ce : c.votes < e.votes := by omega
        have hcount : (p ++ e :: c :: rest).countP
            (fun d => decide (c.votes < d.votes)) = p.length + 1 := by
          rw [List.countP_append]
          have h1 : p.countP (fun d => decide (c.votes < d.votes)) =
              p.length := by
            rw [List.countP_eq_length]
            intro a ha
            simp only [decide_eq_true_eq]
            have hea : e.votes ≤ a.votes :=
              (List.pairwise_append.mp hp).2.2 a ha e (by simp)
            omega
          have h2 : (e :: c :: rest).countP
              (fun d => decide (c.votes < d.votes)) = 1 := by
            have hz : rest.countP (fun d => decide (c.votes < d.votes)) = 0 := by
              rw [List.countP_eq_zero]
              intro a ha
              simp only [decide_eq_true_eq]
              have := hcrest a ha
              omega
            simp [List.countP_cons, hz, hlt_ce]
          rw [h1, h2]
        congr 1
        · rw [hcount]
          congr 1
          omega
        · have hs' : ((p ++ [e]) ++ c :: rest).Pairwise
              (fun a b => b.votes ≤ a.votes) := hli ▸ hs
          have hrank' : p.length + 1 + 1 =
              1 + ((p ++ [e]) ++ c :: rest).countP
                (fun d => decide (c.votes < d.votes)) := by
            rw [← hli, hcount]
            omega
          have := ih (p ++ [e]) c (p.length + 1 + 1) hs' hrank'
          rw [hlen] at this
          rw [this, ← hli]

/-- Closed form of the rank pass on a weakly descending list: every element
gets `1 + (number of elements with strictly more votes)`, the standard
competition rank. -/
theorem assignRanks_closed (l : List ResultCandidate)
    (hs : l.Pairwise (fun a b => b.votes ≤ a.votes)) :
    assignRanks l = l.map (fun c =>
      { c with rank := 1 + l.countP (fun d => decide (c.votes < d.votes)) }) := by
  cases l with
  | nil => rfl
  | cons c rest =>
      rw [assignRanks]
      simp only [assignRanksAux]
      have hne : ¬ ((c.votes : Int) = (-1 : Int)) := by omega
      rw [if_neg hne]
      have hcount : (c :: rest).countP
          (fun d => decide (c.votes < d.votes)) = 0 := by
        rw [List.countP_eq_zero]
        intro a ha
        simp only [decide_eq_true_eq]
        rcases List.mem_cons.mp ha with h | h
        · subst h; omega
        · have := (List.pairwise_cons.mp hs).1 a h
          omega
      rw [List.map_cons]
      congr 1
      · rw [hcount]
      · have hz : rest.countP (fun d => decide (c.votes < d.votes)) = 0 := by
          rw [List.countP_cons] at hcount
          omega
        have hrank' : 0 + 1 =
            1 + (([] : List ResultCandidate) ++ c :: rest).countP
              (fun d => decide (c.votes < d.votes)) := by
          simp only [List.nil_append, List.countP_cons, hz]
          simp
        have := assignRanksAux_closed rest [] c (0 + 1) (by simpa using hs)
          hrank'
        simpa using this

/-- The rank pass changes only the `rank` field. -/
theorem assignRanksAux_map_erase (lv : Int) (cr idx : Nat)
    (l : List ResultCandidate) :
    (assignRanksAux lv cr idx l).map (fun c => { c with rank := 0 }) =
      l.map (fun c => { c with rank := 0 }) := by
  induction l generalizing lv cr idx with
  | nil => rfl
  | cons c rest ih =>
      simp only [assignRanksAux]
      by_cases h : (c.votes : Int) = lv
      · rw [if_pos h]; simp [ih]
      · rw [if_neg h]; simp [ih]

/-- The tie pass changes only the `isTied` field. -/
theorem markTies_map_erase (l : List ResultCandidate) :
    (markTies l).map (fun c => { c with isTied := false }) =
      l.map (fun c => { c with isTied := false }) := by
  rw [markTies, List.map_map]
  rfl

/-! ### Lemmas about online-vote counting -/

/-- Number of online ballots referencing id `k`. -/
def votesFor (vs : List OnlineVote) (k : String) : Nat :=
  vs.countP (fun v => decide (v.candidate_id = some k))

/-- A key that is present stays present and accumulates one increment per
ballot referencing it. -/
theorem mapGet_countOnlineVotes_some (vs : List OnlineVote) :
    ∀ (m : List (String × Nat)) (k : String) (x : Nat), k ≠ "" →
    mapGet m k = some x →
    mapGet (countOnlineVotes m vs) k = some (x + votesFor vs k) := by
  induction vs with
  | nil => intro m k x _ hm; simpa [countOnlineVotes, votesFor] using hm
  | cons v rest ih =>
      intro m k x hk hm
      have hcons : countOnlineVotes m (v :: rest) =
          countOnlineVotes (countOnlineVote m v) rest := rfl
      rw [hcons]
      rcases hv : v.candidate_id with _ | cid
      · have hid : countOnlineVote m v = m := by simp [countOnlineVote, hv]
        rw [hid, ih m k x hk hm]
        simp [votesFor, List.countP_cons, hv]
      · by_cases hcid : cid = ""
        · have hid : countOnlineVote m v = m := by
            simp [countOnlineVote, hv, hcid]
          rw [hid, ih m k x hk hm]
          have hne : ¬ (v.candidate_id = some k) := by
            rw [hv]; intro h; injection h with h; exact hk (h ▸ hcid ▸ rfl)
          simp [votesFor, List.countP_cons, hne]
        · by_cases hck : cid = k
          · subst hck
            have hid : countOnlineVote m v = mapSet m cid (x + 1) := by
              simp [countOnlineVote, hv, hcid, hm]
            rw [hid]
            have hm' : mapGet (mapSet m cid (x + 1)) cid = some (x + 1) := by
              rw [mapGet_mapSet]; simp
            rw [ih _ cid (x + 1) hk hm']
            have hvf : votesFor (v :: rest) cid = votesFor rest cid + 1 := by
              simp [votesFor, List.countP_cons, hv]
            rw [hvf]
            congr 1
            omega
          · have hkeep : mapGet (countOnlineVote m v) k = some x := by
              simp only [countOnlineVote, hv]
              rw [if_neg hcid, mapGet_mapSet, if_neg hck]
              exact hm
            rw [ih _ k x hk hkeep]
            have hne : ¬ (v.candidate_id = some k) := by
              rw [hv]; intro h; injection h with h; exact hck h
            simp [votesFor, List.countP_cons, hne]

/-- A key that is absent appears exactly when some ballot references it, and
then carries exactly the number of such ballots: the "phantom entry" for an
unknown candidate id. -/
theorem mapGet_countOnlineVotes_none (vs : List OnlineVote) :
    ∀ (m : List (String × Nat)) (k : String), k ≠ "" →
    mapGet m k = none →
    mapGet (countOnlineVotes m vs) k =
      if votesFor vs k = 0 then none else some (votesFor vs k) := by
  induction vs with
  | nil => intro m k _ hm; simpa [countOnlineVotes, votesFor] using hm
  | cons v rest ih =>
      intro m k hk hm
      have hcons : countOnlineVotes m (v :: rest) =
          countOnlineVotes (countOnlineVote m v) rest := rfl
      rw [hcons]
      rcases hv : v.candidate_id with _ | cid
      · have hid : countOnlineVote m v = m := by simp [countOnlineVote, hv]
        rw [hid, ih m k hk hm]
        simp [votesFor, List.countP_cons, hv]
      · by_cases hcid : cid = ""
        · have hid : countOnlineVote m v = m := by
            simp [countOnlineVote, hv, hcid]
          rw [hid, ih m k hk hm]
          have hne : ¬ (v.candidate_id = some k) := by
            rw [hv]; intro h; injection h with h; exact hk (h ▸ hcid ▸ rfl)
          simp [votesFor, List.countP_cons, hne]
        · by_cases hck : cid = k
          · subst hck
            have hid : countOnlineVote m v = mapSet m cid 1 := by
              simp [countOnlineVote, hv, hcid, hm]
            rw [hid]
            have hm' : mapGet (mapSet m cid 1) cid = some 1 := by
              rw [mapGet_mapSet]; simp
            rw [mapGet_countOnlineVotes_some rest _ cid 1 hk hm']
            have hvf : votesFor (v :: rest) cid = votesFor rest cid + 1 := by
              simp [votesFor, List.countP_cons, hv]
            rw [hvf]
            have hpos : ¬ (votesFor rest cid + 1 = 0) := by omega
            rw [if_neg hpos]
            congr 1
            omega
          · have hkeep : mapGet (countOnlineVote m v) k = none := by
              simp only [countOnlineVote, hv]
              rw [if_neg hcid, mapGet_mapSet, if_neg hck]
              exact hm
            rw [ih _ k hk hkeep]
            have hne : ¬ (v.candidate_id = some k) := by
              rw [hv]; intro h; injection h with h; exact hck h
            simp [votesFor, List.countP_cons, hne]

/-! ### Characterisation of the candidate-id join map -/

theorem find?_append {α : Type} (p : α → Bool) (l₁ l₂ : List α) :
    (l₁ ++ l₂).find? p =
      match l₁.find? p with
      | some a => some a
      | none => l₂.find? p := by
  induction l₁ with
  | nil => simp
  | cons a t ih =>
      by_cases h : p a
      · simp [List.find?_cons_of_pos _ h]
      · simp only [List.cons_append, List.find?_cons_of_neg _ h, ih]

/-- `candidateIdMap` resolves a key to the id of the LAST candidate in the
list with that (position, name) pair: later duplicates override earlier
ones, as `Map.set` does. -/
theorem mapGet_candidateIdMap (cs : List Candidate) (k : String) :
    mapGet (candidateIdMap cs) k =
      match cs.reverse.find?
        (fun c => decide (joinKey c.position c.name = k)) with
      | some c => some c.id
      | none => none := by
  suffices h : ∀ (m : List (String × String)),
      mapGet (cs.foldl
        (fun m c => mapSet m (joinKey c.position c.name) c.id) m) k =
        match cs.reverse.find?
          (fun c => decide (joinKey c.position c.name = k)) with
        | some c => some c.id
        | none => mapGet m k by
    have h0 := h []
    rw [candidateIdMap, h0]
    rcases hf : cs.reverse.find?
        (fun c => decide (joinKey c.position c.name = k)) with _ | c
    · rfl
    · rfl
  induction cs with
  | nil => intro m; simp
  | cons c rest ih =>
      intro m
      simp only [List.foldl_cons, List.reverse_cons]
      rw [ih, find?_append]
      rcases hf : rest.reverse.find?
          (fun c => decide (joinKey c.position c.name = k)) with _ | c'
      · rw [hf]
        by_cases hk : joinKey c.position c.name = k
        · simp [mapGet_mapSet, hk]
        · simp [mapGet_mapSet, hk]
      · rw [hf]

/-- Every id the join map can return is the id of some candidate. -/
theorem mapGet_candidateIdMap_mem (cs : List Candidate) (k cid : String)
    (h : mapGet (candidateIdMap cs) k = some cid) :
    cid ∈ cs.map (fun c => c.id) := by
  rw [mapGet_candidateIdMap] at h
  rcases hf : cs.reverse.find?
      (fun c => decide (joinKey c.position c.name = k)) with _ | c
  · rw [hf] at h; exact absurd h (by simp)
  · rw [hf] at h
    have hc : c ∈ cs.reverse := List.mem_of_find?_eq_some hf
    rw [List.mem_reverse] at hc
    have : cid = c.id := by injection h with h'; exact h'.symm
    subst this
    exact List.mem_map_of_mem _ hc

/-! ### Lemmas about physical-vote counting -/

theorem mapGet_countPhysEntry (idMap : List (String × String))
    (m : List (String × Nat)) (e : String × String) (k : String) :
    mapGet (countPhysEntry idMap m e) k =
      if mapGet idMap (joinKey e.1 e.2) = some k then
        some ((mapGet m k).getD 0 + 1)
      else mapGet m k := by
  rw [countPhysEntry]
  rcases hres : mapGet idMap (joinKey e.1 e.2) with _ | cid
  · rw [if_neg (by simp)]
  · by_cases hck : cid = k
    · subst hck
      rw [if_pos rfl, mapGet_mapSet, if_pos rfl]
    · rw [if_neg (by simpa using hck), mapGet_mapSet, if_neg hck]

/-- A key no join-map entry resolves to is never touched by a decoded
record's entries. -/
theorem mapGet_countPhysEntries_of_never (idMap : List (String × String))
    (x : String) (h : ∀ k, mapGet idMap k ≠ some x)
    (es : List (String × String)) :
    ∀ (m : List (String × Nat)),
    mapGet (countPhysEntries idMap m es) x = mapGet m x := by
  induction es with
  | nil => intro m; rfl
  | cons e rest ih =>
      intro m
      have hcons : countPhysEntries idMap m (e :: rest) =
          countPhysEntries idMap (countPhysEntry idMap m e) rest := rfl
      rw [hcons, ih, mapGet_countPhysEntry, if_neg (h (joinKey e.1 e.2))]

/-- A key no join-map entry resolves to is never touched by the whole
physical-ballot pass. -/
theorem mapGet_countPhysicalVotes_of_never (idMap : List (String × String))
    (x : String) (h : ∀ k, mapGet idMap k ≠ some x)
    (ps : List PhysicalVote) :
    ∀ (m : List (String × Nat)),
    mapGet (countPhysicalVotes idMap m ps) x = mapGet m x := by
  induction ps with
  | nil => intro m; rfl
  | cons pv rest ih =>
      intro m
      have hcons : countPhysicalVotes idMap m (pv :: rest) =
          countPhysicalVotes idMap (countPhysicalVote idMap m pv) rest := rfl
      rw [hcons, ih]
      rcases hpv : pv.votes with _ | payload
      · simp [countPhysicalVote, hpv]
      · rcases payload with _ | es
        · simp [countPhysicalVote, hpv]
        · simp only [countPhysicalVote, hpv]
          exact mapGet_countPhysEntries_of_never idMap x h es m

/-! ### Summing per-candidate counts -/

/-- The sum, over the candidate list, of each candidate's count in `m`
(what the per-position totals of `fetchResults` add up to). -/
def sumCounts (cs : List Candidate) (m : List (String × Nat)) : Nat :=
  (cs.map (fun c => (mapGet m c.id).getD 0)).sum

theorem sumCounts_mapSet_not_mem (cs : List Candidate)
    (m : List (String × Nat)) (cid : String) (v : Nat)
    (h : ¬ cid ∈ cs.map (fun c => c.id)) :
    sumCounts cs (mapSet m cid v) = sumCounts cs m := by
  induction cs with
  | nil => rfl
  | cons c rest ih =>
      have h1 : ¬ cid = c.id := fun he => h (by simp [he])
      have h2 : ¬ cid ∈ rest.map (fun c => c.id) := fun he => h (by simp [he])
      simp only [sumCounts, List.map_cons, List.sum_cons]
      rw [mapGet_mapSet, if_neg h1]
      have htail := ih h2
      simp only [sumCounts] at htail
      rw [htail]

theorem sumCounts_increment (cs : List Candidate)
    (m : List (String × Nat)) (cid : String)
    (hnd : (cs.map (fun c => c.id)).Nodup)
    (hmem : cid ∈ cs.map (fun c => c.id)) :
    sumCounts cs (mapSet m cid ((mapGet m cid).getD 0 + 1)) =
      sumCounts cs m + 1 := by
  induction cs with
  | nil => simp at hmem
  | cons c rest ih =>
      rw [List.map_cons, List.nodup_cons] at hnd
      simp only [sumCounts, List.map_cons, List.sum_cons]
      by_cases hc : cid = c.id
      · have hnr : ¬ cid ∈ rest.map (fun c => c.id) := hc ▸ hnd.1
        have htail := sumCounts_mapSet_not_mem rest m cid
          ((mapGet m cid).getD 0 + 1) hnr
        simp only [sumCounts] at htail
        rw [mapGet_mapSet, if_pos hc, htail, hc]
        simp only [Option.getD_some]
        omega
      · have hmr : cid ∈ rest.map (fun c => c.id) := by
          have hmem' := hmem
          rw [List.map_cons, List.mem_cons] at hmem'
          rcases hmem' with h | h
          · exact absurd h hc
          · exact h
        rw [mapGet_mapSet, if_neg hc]
        have htail := ih hnd.2 hmr
        simp only [sumCounts] at htail
        rw [htail]
        omega

/-- Whether one online ballot is counted towards a listed candidate:
a non-null, non-empty id that belongs to the candidate set. -/
def onlineResolves (cs : List Candidate) (v : OnlineVote) : Bool :=
  match v.candidate_id with
  | some cid => !(decide (cid = "")) && decide (cid ∈ cs.map (fun c => c.id))
  | none => false

theorem sumCounts_countOnlineVote (cs : List Candidate)
    (m : List (String × Nat)) (v : OnlineVote)
    (hnd : (cs.map (fun c => c.id)).Nodup) :
    sumCounts cs (countOnlineVote m v) =
      sumCounts cs m + (if onlineResolves cs v then 1 else 0) := by
  rcases hv : v.candidate_id with _ | cid
  · simp [countOnlineVote, onlineResolves, hv]
  · by_cases hcid : cid = ""
    · simp [countOnlineVote, onlineResolves, hv, hcid]
    · by_cases hmem : cid ∈ cs.map (fun c => c.id)
      · have hres : onlineResolves cs v = true := by
          simp [onlineResolves, hv, hcid, hmem]
        rw [hres]
        simp only [countOnlineVote, hv, if_neg hcid]
        rw [sumCounts_increment cs m cid hnd hmem]
        simp
      · have hres : onlineResolves cs v = false := by
          simp [onlineResolves, hv, hmem]
        rw [hres]
        simp only [countOnlineVote, hv, if_neg hcid]
        rw [sumCounts_mapSet_not_mem cs m cid _ hmem]
        simp

theorem sumCounts_countOnlineVotes (cs : List Candidate)
    (vs : List OnlineVote) (hnd : (cs.map (fun c => c.id)).Nodup) :
    ∀ m, sumCounts cs (countOnlineVotes m vs) =
      sumCounts cs m + vs.countP (onlineResolves cs) := by
  induction vs with
  | nil => intro m; simp [countOnlineVotes]
  | cons v rest ih =>
      intro m
      have hcons : countOnlineVotes m (v :: rest) =
          countOnlineVotes (countOnlineVote m v) rest := rfl
      rw [hcons, ih, sumCounts_countOnlineVote cs m v hnd, List.countP_cons]
      by_cases hres : onlineResolves cs v <;> simp [hres] <;> omega

/-- Whether one (position, candidateName) entry of a physical ballot
resolves through the join map. -/
def physEntryResolves (cs : List Candidate) (e : String × String) : Bool :=
  (mapGet (candidateIdMap cs) (joinKey e.1 e.2)).isSome

theorem sumCounts_countPhysEntry (cs : List Candidate)
    (m : List (String × Nat)) (e : String × String)
    (hnd : (cs.map (fun c => c.id)).Nodup) :
    sumCounts cs (countPhysEntry (candidateIdMap cs) m e) =
      sumCounts cs m + (if physEntryResolves cs e then 1 else 0) := by
  rcases hres : mapGet (candidateIdMap cs) (joinKey e.1 e.2) with _ | cid
  · simp only [countPhysEntry, hres, physEntryResolves]
    simp [hres]
  · simp only [countPhysEntry, hres, physEntryResolves]
    rw [sumCounts_increment cs m cid hnd
      (mapGet_candidateIdMap_mem cs (joinKey e.1 e.2) cid hres)]
    simp [hres]

theorem sumCounts_countPhysEntries (cs : List Candidate)
    (es : List (String × String)) (hnd : (cs.map (fun c => c.id)).Nodup) :
    ∀ m, sumCounts cs (countPhysEntries (candidateIdMap cs) m es) =
      sumCounts cs m + es.countP (physEntryResolves cs) := by
  induction es with
  | nil => intro m; simp [countPhysEntries]
  | cons e rest ih =>
      intro m
      have hcons : countPhysEntries (candidateIdMap cs) m (e :: rest) =
          countPhysEntries (candidateIdMap cs)
            (countPhysEntry (candidateIdMap cs) m e) rest := rfl
      rw [hcons, ih, sumCounts_countPhysEntry cs m e hnd, List.countP_cons]
      by_cases hres : physEntryResolves cs e <;> simp [hres] <;> omega

/-- How many entries of one physical-ballot row are actually counted:
none for a null or undecodable payload, otherwise the resolving entries. -/
def resolvedEntries (cs : List Candidate) (pv : PhysicalVote) : Nat :=
  match pv.votes with
  | some (PhysPayload.decodable es) => es.countP (physEntryResolves cs)
  | _ => 0

theorem sumCounts_countPhysicalVotes (cs : List Candidate)
    (ps : List PhysicalVote) (hnd : (cs.map (fun c => c.id)).Nodup) :
    ∀ m, sumCounts cs (countPhysicalVotes (candidateIdMap cs) m ps) =
      sumCounts cs m + (ps.map (resolvedEntries cs)).sum := by
  induction ps with
  | nil => intro m; simp [countPhysicalVotes]
  | cons pv rest ih =>
      intro m
      have hcons : countPhysicalVotes (candidateIdMap cs) m (pv :: rest) =
          countPhysicalVotes (candidateIdMap cs)
            (countPhysicalVote (candidateIdMap cs) m pv) rest := rfl
      rw [hcons, ih, List.map_cons, List.sum_cons]
      rcases hpv : pv.votes with _ | payload
      · simp [countPhysicalVote, hpv, resolvedEntries]
      · rcases payload with _ | es
        · simp [countPhysicalVote, hpv, resolvedEntries]
        · simp only [countPhysicalVote, hpv, resolvedEntries]
          rw [sumCounts_countPhysEntries cs es hnd m]
          omega

theorem sumCounts_init (cs : List Candidate) :
    sumCounts cs (initVoteCounts cs) = 0 := by
  rw [sumCounts]
  apply List.sum_eq_zero
  intro x hx
  rcases List.mem_map.mp hx with ⟨c, hc, hcx⟩
  rw [← hcx, mapGet_initVoteCounts,
    if_pos (List.mem_map_of_mem _ hc)]
  rfl

/-! ### Unfolding helpers and the partition of candidates by position -/

theorem getFinalVoteCounts_candidates (cs : List Candidate)
    (ov : Option (List OnlineVote)) (pvs : Option (List PhysicalVote)) :
    (getFinalVoteCounts (some cs) ov pvs).candidates = cs := by
  rcases ov with _ | vs <;> rcases pvs with _ | ps <;> rfl

theorem getFinalVoteCounts_voteCounts (cs : List Candidate)
    (vs : List OnlineVote) (ps : List PhysicalVote) :
    (getFinalVoteCounts (some cs) (some vs) (some ps)).voteCounts =
      countPhysicalVotes (candidateIdMap cs)
        (countOnlineVotes (initVoteCounts cs) vs) ps := rfl

/-- The vote-count map after the online pass, whether or not the online
fetch succeeded (`onlineVotes?.forEach` skips a null fetch). -/
def onlineStage (cs : List Candidate) (ov : Option (List OnlineVote)) :
    List (String × Nat) :=
  match ov with
  | none => initVoteCounts cs
  | some vs => countOnlineVotes (initVoteCounts cs) vs

theorem getFinalVoteCounts_some_phys (cs : List Candidate)
    (ov : Option (List OnlineVote)) (ps : List PhysicalVote) :
    getFinalVoteCounts (some cs) ov (some ps) =
      { candidates := cs,
        voteCounts :=
          countPhysicalVotes (candidateIdMap cs) (onlineStage cs ov) ps,
        totalVotes :=
          sumValues (countPhysicalVotes (candidateIdMap cs)
            (onlineStage cs ov) ps) } := by
  rcases ov with _ | vs <;> rfl

theorem fetchResults_eq (cs : List Candidate) (ov : Option (List OnlineVote))
    (pvs : Option (List PhysicalVote)) (h : ¬ cs = []) :
    fetchResults (some cs) ov pvs =
      (dedupFirst (cs.map (fun c => c.position))).map
        (positionResult cs (getFinalVoteCounts (some cs) ov pvs).voteCounts) := by
  simp only [fetchResults, getFinalVoteCounts_candidates]
  rw [if_neg h]

theorem foldl_add_map {α : Type} (f : α → Nat) (l : List α) :
    ∀ init : Nat, l.foldl (fun s a => s + f a) init = init + (l.map f).sum := by
  induction l with
  | nil => intro init; simp
  | cons a t ih =>
      intro init
      simp only [List.foldl_cons, List.map_cons, List.sum_cons]
      rw [ih]
      omega

theorem positionResult_totalVotes (cs : List Candidate)
    (m : List (String × Nat)) (pos : String) :
    (positionResult cs m pos).totalVotes =
      sumCounts (cs.filter (fun c => decide (c.position = pos))) m := by
  simp only [positionResult, positionTotal, sumCounts]
  rw [foldl_add_map]
  omega

theorem sum_map_filter_split {α : Type} (f : α → Nat) (p : α → Bool)
    (l : List α) :
    (l.map f).sum =
      ((l.filter p).map f).sum +
        ((l.filter (fun a => !(p a))).map f).sum := by
  induction l with
  | nil => simp
  | cons a t ih =>
      by_cases h : p a <;> simp [List.filter_cons, h, ih] <;> omega

theorem filter_pos_of_ne (l : List Candidate) (p p' : String)
    (hne : ¬ p' = p) :
    (l.filter (fun c => !(decide (c.position = p)))).filter
        (fun c => decide (c.position = p')) =
      l.filter (fun c => decide (c.position = p')) := by
  induction l with
  | nil => rfl
  | cons c t ih =>
      have hne' : ¬ p = p' := fun hh => hne hh.symm
      by_cases h1 : c.position = p
      · have h2 : ¬ c.position = p' := fun h => hne (h ▸ h1 ▸ rfl)
        simp [List.filter_cons, h1, h2, hne', ih]
      · by_cases h2 : c.position = p'
        · simp [List.filter_cons, h1, h2, hne, hne', ih]
        · simp [List.filter_cons, h1, h2, hne, hne', ih]

/-- Summing a quantity position-group by position-group (over a duplicate-free
list of positions covering every candidate) is summing it over all
candidates. -/
theorem sum_over_positions (f : Candidate → Nat) :
    ∀ (P : List String) (cs : List Candidate), P.Nodup →
    (∀ c ∈ cs, c.position ∈ P) →
    (P.map (fun pos =>
      ((cs.filter (fun c => decide (c.position = pos))).map f).sum)).sum =
      (cs.map f).sum := by
  intro P
  induction P with
  | nil =>
      intro cs _ hcov
      cases cs with
      | nil => simp
      | cons c t => exact absurd (hcov c (by simp)) (by simp)
  | cons p P' ih =>
      intro cs hnd hcov
      rw [List.nodup_cons] at hnd
      rw [List.map_cons, List.sum_cons]
      have hcov' : ∀ c ∈ cs.filter (fun c => !(decide (c.position = p))),
          c.position ∈ P' := by
        intro c hc
        have hcm := List.mem_filter.mp hc
        have hb : ¬ c.position = p := by
          have := hcm.2
          simp at this
          exact this
        rcases List.mem_cons.mp (hcov c hcm.1) with h | h
        · exact absurd h hb
        · exact h
      have hmap : P'.map (fun pos =>
            ((cs.filter (fun c => decide (c.position = pos))).map f).sum) =
          P'.map (fun pos =>
            (((cs.filter (fun c => !(decide (c.position = p)))).filter
              (fun c => decide (c.position = pos))).map f).sum) := by
        apply List.map_congr_left
        intro pos hpos
        rw [filter_pos_of_ne cs p pos (fun h => hnd.1 (h ▸ hpos))]
      rw [hmap, ih _ hnd.2 hcov']
      exact (sum_map_filter_split f (fun c => decide (c.position = p)) cs).symm

theorem countPhysicalVotes_append (idMap : List (String × String))
    (m : List (String × Nat)) (l₁ l₂ : List PhysicalVote) :
    countPhysicalVotes idMap m (l₁ ++ l₂) =
      countPhysicalVotes idMap (countPhysicalVotes idMap m l₁) l₂ :=
  List.foldl_append _ _ _ _

theorem countPhysEntries_append (idMap : List (String × String))
    (m : List (String × Nat)) (l₁ l₂ : List (String × String)) :
    countPhysEntries idMap m (l₁ ++ l₂) =
      countPhysEntries idMap (countPhysEntries idMap m l₁) l₂ :=
  List.foldl_append _ _ _ _

theorem countOnlineVotes_append (m : List (String × Nat))
    (l₁ l₂ : List OnlineVote) :
    countOnlineVotes m (l₁ ++ l₂) =
      countOnlineVotes (countOnlineVotes m l₁) l₂ :=
  List.foldl_append _ _ _ _

/-! ### Field preservation through the rank and tie passes -/

theorem filter_votes_map (f : ResultCandidate → ResultCandidate)
    (hf : ∀ c, (f c).votes = c.votes) (l : List ResultCandidate) (v : Nat) :
    (l.map f).filter (fun d => decide (d.votes = v)) =
      (l.filter (fun d => decide (d.votes = v))).map f := by
  induction l with
  | nil => rfl
  | cons c t ih =>
      simp only [List.map_cons, List.filter_cons, hf]
      by_cases h : c.votes = v <;> simp [h, ih]

theorem countP_votes_map (f : ResultCandidate → ResultCandidate)
    (hf : ∀ c, (f c).votes = c.votes) (l : List ResultCandidate)
    (p : Nat → Bool) :
    (l.map f).countP (fun d => p d.votes) = l.countP (fun d => p d.votes) := by
  induction l with
  | nil => rfl
  | cons c t ih => simp [List.countP_cons, hf, ih]

/-- Any candidate appearing in a position's final list is one of the
position's candidates, carrying exactly its count and the percentage
formula. -/
theorem mem_positionResult_candidates (cs : List Candidate)
    (m : List (String × Nat)) (pos : String) (rc : ResultCandidate)
    (h : rc ∈ (positionResult cs m pos).candidates) :
    ∃ c ∈ cs.filter (fun c => decide (c.position = pos)),
      rc.id = c.id ∧ rc.name = c.name ∧ rc.position = c.position ∧
      rc.votes = (mapGet m c.id).getD 0 ∧
      rc.percentage = (if 0 < positionTotal cs m pos then
        (((mapGet m c.id).getD 0 : ℚ) / (positionTotal cs m pos : ℚ)) * 100
      else 0) := by
  simp only [positionResult, markTies] at h
  rcases List.mem_map.mp h with ⟨d, hd, hrc⟩
  have hsorted := sortByVotesDesc_pairwise (positionSortInput cs m pos)
  rw [assignRanks_closed _ hsorted] at hd
  rcases List.mem_map.mp hd with ⟨d', hd', hdd⟩
  have hmem' : d' ∈ positionSortInput cs m pos :=
    (sortByVotesDesc_perm _).mem_iff.mp hd'
  rcases List.mem_map.mp hmem' with ⟨c, hc, hcd⟩
  refine ⟨c, hc, ?_⟩
  rw [← hrc, ← hdd, ← hcd]
  simp [toResultCandidate]

/-! ### Concrete fixtures used by counterexamples and witnesses -/

def candA : Candidate := { id := "1", name := "A", position := "Pres" }

def candB : Candidate := { id := "2", name := "B", position := "Pres" }

def candC : Candidate := { id := "3", name := "C", position := "VP" }

/-! ### The claims -/

/-- C1, counterexample.  The claim says a failed candidate or ballot fetch
makes `computeVoteCounts` propagate an explicit error, with no partial or
all-zero result returned.  In the source, a null candidate fetch returns the
ordinary sentinel `{candidates: [], voteCounts: new Map(), totalVotes: 0}`
and a null ballot fetch is skipped by `onlineVotes?.forEach`: here, with one
candidate and a failed online-vote fetch, the function returns an ordinary
all-zero tally, and with a failed candidate fetch it returns the sentinel —
in neither case an error. -/
theorem C1_counterexample :
    getFinalVoteCounts (some [candA]) none (some []) =
      { candidates := [candA], voteCounts := [("1", 0)], totalVotes := 0 } ∧
    getFinalVoteCounts none (some [{ candidate_id := some "1" }]) none =
      { candidates := [], voteCounts := [], totalVotes := 0 } :=
  ⟨rfl, rfl⟩

/-- C1, amended: `getFinalVoteCounts` never propagates an error.  A failed
candidate fetch yields the sentinel output (empty candidates, empty map,
total 0) without processing any ballots, and a failed online- or
physical-ballot fetch behaves exactly as an empty list of rows from that
source, so the remaining counts (possibly all zero) are still returned. -/
theorem C1_amended (ov : Option (List OnlineVote))
    (pv : Option (List PhysicalVote)) (cs : List Candidate)
    (vs : List OnlineVote) :
    getFinalVoteCounts none ov pv =
      { candidates := [], voteCounts := [], totalVotes := 0 } ∧
    getFinalVoteCounts (some cs) none pv =
      getFinalVoteCounts (some cs) (some []) pv ∧
    getFinalVoteCounts (some cs) (some vs) none =
      getFinalVoteCounts (some cs) (some vs) (some []) := by
  refine ⟨rfl, ?_, rfl⟩
  rcases pv with _ | ps <;> rfl

/-- C2, counterexample.  The claim says a digital ballot referencing an id
outside the candidate set changes no count in the returned map.  In the
source the increment `voteCounts.set(id, (voteCounts.get(id) || 0) + 1)` is
unconditional, so such a ballot inserts a fresh entry (`"ghost" -> 1`) into
the returned map and is also counted into `totalVotes`. -/
theorem C2_counterexample :
    (getFinalVoteCounts (some [candA])
        (some [{ candidate_id := some "ghost" }]) (some [])).voteCounts =
      [("1", 0), ("ghost", 1)] ∧
    (getFinalVoteCounts (some [candA]) (some []) (some [])).voteCounts =
      [("1", 0)] ∧
    (getFinalVoteCounts (some [candA])
        (some [{ candidate_id := some "ghost" }]) (some [])).totalVotes = 1 ∧
    (getFinalVoteCounts (some [candA]) (some []) (some [])).totalVotes = 0 :=
  ⟨rfl, rfl, rfl, rfl⟩

/-- C2, amended.  A digital ballot whose (non-empty) candidate id is in the
candidate set raises that candidate's count by exactly one per ballot, so
the final count equals the number of such ballots; a ballot referencing an
id outside the candidate set raises no error and changes no listed
candidate's count, but it does insert or increment an entry for the unknown
id in the returned map. -/
theorem C2_amended (cs : List Candidate) (vs : List OnlineVote)
    (c : Candidate) (hc : c ∈ cs) (hid : ¬ c.id = "")
    (u : String) (hu : ¬ u ∈ cs.map (fun c => c.id)) (hune : ¬ u = "") :
    mapGet ((getFinalVoteCounts (some cs) (some vs) (some [])).voteCounts)
        c.id = some (votesFor vs c.id) ∧
    mapGet ((getFinalVoteCounts (some cs)
        (some (vs ++ [{ candidate_id := some u }])) (some [])).voteCounts)
        c.id =
      mapGet ((getFinalVoteCounts (some cs) (some vs)
        (some [])).voteCounts) c.id ∧
    mapGet ((getFinalVoteCounts (some cs)
        (some (vs ++ [{ candidate_id := some u }])) (some [])).voteCounts)
        u =
      some ((mapGet ((getFinalVoteCounts (some cs) (some vs)
        (some [])).voteCounts) u).getD 0 + 1) := by
  have hred : ∀ ws : List OnlineVote,
      (getFinalVoteCounts (some cs) (some ws) (some [])).voteCounts =
        countOnlineVotes (initVoteCounts cs) ws := fun _ => rfl
  have hinit : mapGet (initVoteCounts cs) c.id = some 0 := by
    rw [mapGet_initVoteCounts, if_pos (List.mem_map_of_mem _ hc)]
  have hcu : ¬ c.id = u := fun h => hu (h ▸ List.mem_map_of_mem _ hc)
  have hsing : ∀ M, countOnlineVotes M [{ candidate_id := some u }] =
      countOnlineVote M { candidate_id := some u } := fun _ => rfl
  refine ⟨?_, ?_, ?_⟩
  · rw [hred, mapGet_countOnlineVotes_some vs _ c.id 0 hid hinit]
    simp
  · rw [hred, hred, countOnlineVotes_append, hsing]
    simp only [countOnlineVote]
    rw [if_neg hune, mapGet_mapSet, if_neg (fun h => hcu h.symm)]
  · rw [hred, hred, countOnlineVotes_append, hsing]
    simp only [countOnlineVote]
    rw [if_neg hune, mapGet_mapSet, if_pos rfl]

/-- C2, amended, witness: two candidates, two ballots for "1" and one for an
unknown id "ghost". -/
theorem C2_amended_witness :
    mapGet ((getFinalVoteCounts (some [candA, candB])
        (some [{ candidate_id := some "1" }, { candidate_id := some "1" }])
        (some [])).voteCounts) candA.id =
      some (votesFor [{ candidate_id := some "1" },
        { candidate_id := some "1" }] candA.id) :=
  (C2_amended [candA, candB]
    [{ candidate_id := some "1" }, { candidate_id := some "1" }]
    candA (by decide) (by decide) "ghost" (by decide) (by decide)).1

/-- C6: a physical-ballot record whose payload fails to decode is skipped in
isolation (the records around it are still tallied), and inside a record
that does decode, an entry whose (position, name) key resolves to no
candidate is skipped while the record's other entries still count. -/
theorem C6_record_isolation (cs : List Candidate)
    (ov : Option (List OnlineVote)) (ps₁ ps₂ : List PhysicalVote)
    (pv : PhysicalVote) (hbad : pv.votes = some PhysPayload.malformed)
    (es₁ es₂ : List (String × String)) (e : String × String)
    (hun : mapGet (candidateIdMap cs) (joinKey e.1 e.2) = none) :
    getFinalVoteCounts (some cs) ov (some (ps₁ ++ pv :: ps₂)) =
      getFinalVoteCounts (some cs) ov (some (ps₁ ++ ps₂)) ∧
    getFinalVoteCounts (some cs) ov (some (ps₁ ++
        { votes := some (PhysPayload.decodable (es₁ ++ e :: es₂)) } :: ps₂)) =
      getFinalVoteCounts (some cs) ov (some (ps₁ ++
        { votes := some (PhysPayload.decodable (es₁ ++ es₂)) } :: ps₂)) := by
  have hstep : ∀ (m : List (String × Nat)) (q : PhysicalVote)
      (rest : List PhysicalVote),
      countPhysicalVotes (candidateIdMap cs) m (q :: rest) =
        countPhysicalVotes (candidateIdMap cs)
          (countPhysicalVote (candidateIdMap cs) m q) rest :=
    fun _ _ _ => rfl
  constructor
  · have hvc : ∀ m, countPhysicalVotes (candidateIdMap cs) m
        (ps₁ ++ pv :: ps₂) =
        countPhysicalVotes (candidateIdMap cs) m (ps₁ ++ ps₂) := by
      intro m
      rw [countPhysicalVotes_append, countPhysicalVotes_append, hstep]
      rw [(by simp [countPhysicalVote, hbad] :
        countPhysicalVote (candidateIdMap cs)
          (countPhysicalVotes (candidateIdMap cs) m ps₁) pv =
          countPhysicalVotes (candidateIdMap cs) m ps₁)]
    rw [getFinalVoteCounts_some_phys, getFinalVoteCounts_some_phys, hvc]
  · have hent : ∀ m', countPhysEntries (candidateIdMap cs) m' (e :: es₂) =
        countPhysEntries (candidateIdMap cs) m' es₂ := by
      intro m'
      have h1 : countPhysEntries (candidateIdMap cs) m' (e :: es₂) =
          countPhysEntries (candidateIdMap cs)
            (countPhysEntry (candidateIdMap cs) m' e) es₂ := rfl
      rw [h1, (by simp [countPhysEntry, hun] :
        countPhysEntry (candidateIdMap cs) m' e = m')]
    have hvc : ∀ m, countPhysicalVotes (candidateIdMap cs) m (ps₁ ++
        { votes := some (PhysPayload.decodable (es₁ ++ e :: es₂)) } :: ps₂) =
        countPhysicalVotes (candidateIdMap cs) m (ps₁ ++
        { votes := some (PhysPayload.decodable (es₁ ++ es₂)) } :: ps₂) := by
      intro m
      rw [countPhysicalVotes_append, countPhysicalVotes_append, hstep, hstep]
      simp only [countPhysicalVote]
      rw [countPhysEntries_append, countPhysEntries_append, hent]
    rw [getFinalVoteCounts_some_phys, getFinalVoteCounts_some_phys, hvc]

/-- C6 witness: a malformed record between two good ones, and a "VP_Ghost"
entry (resolving to no candidate) inside a record that also votes for A. -/
theorem C6_record_isolation_witness :
    getFinalVoteCounts (some [candA, candC]) (some []) (some
        ([{ votes := some (PhysPayload.decodable [("Pres", "A")]) }] ++
          { votes := some PhysPayload.malformed } ::
          [{ votes := some (PhysPayload.decodable [("VP", "C")]) }])) =
      getFinalVoteCounts (some [candA, candC]) (some []) (some
        ([{ votes := some (PhysPayload.decodable [("Pres", "A")]) }] ++
          [{ votes := some (PhysPayload.decodable [("VP", "C")]) }])) :=
  (C6_record_isolation [candA, candC] (some [])
    [{ votes := some (PhysPayload.decodable [("Pres", "A")]) }]
    [{ votes := some (PhysPayload.decodable [("VP", "C")]) }]
    { votes := some PhysPayload.malformed } rfl
    [("Pres", "A")] [] ("VP", "Ghost") (by decide)).1

/-- C9: posting official results only ever inserts: a successful call
appends one new snapshot row at a fresh id and leaves every earlier row in
place, so two successive calls on the same (unchanged) tally append two rows
with distinct ids and identical result content. -/
theorem C9_append_only (store : List Snapshot) (cs : List Candidate)
    (ov : Option (List OnlineVote)) (pvs : Option (List PhysicalVote))
    (h : ¬ cs = []) :
    handlePostResults store (some cs) ov pvs =
      Except.ok (store ++ [Snapshot.mk store.length
        (finalResults cs (getFinalVoteCounts (some cs) ov pvs).voteCounts)]) ∧
    handlePostResults (store ++ [Snapshot.mk store.length
        (finalResults cs (getFinalVoteCounts (some cs) ov pvs).voteCounts)])
        (some cs) ov pvs =
      Except.ok (store ++ [Snapshot.mk store.length
        (finalResults cs (getFinalVoteCounts (some cs) ov pvs).voteCounts),
        Snapshot.mk (store.length + 1)
        (finalResults cs (getFinalVoteCounts (some cs) ov pvs).voteCounts)]) ∧
    ¬ store.length = store.length + 1 := by
  refine ⟨?_, ?_, by omega⟩
  · simp only [handlePostResults, getFinalVoteCounts_candidates]
    rw [if_neg h]
    rfl
  · simp only [handlePostResults, getFinalVoteCounts_candidates]
    rw [if_neg h]
    simp [insertOfficial]

/-- C9 witness: posting twice from an empty store with one candidate and no
ballots. -/
theorem C9_append_only_witness :
    handlePostResults [] (some [candA]) (some []) (some []) =
      Except.ok [Snapshot.mk 0 (finalResults [candA]
        (getFinalVoteCounts (some [candA]) (some []) (some [])).voteCounts)] :=
  by
    have h := (C9_append_only [] [candA] (some []) (some [])
      (by decide)).1
    simpa using h

/-- C3: summed over every position, the per-position totals count exactly
the digital ballots whose id belongs to the candidate set plus the
physical-ballot entries that resolve through the (position, name) join map;
null, malformed and unresolved entries contribute nothing.  Candidate ids
are the table's primary key, hence assumed duplicate-free and non-empty. -/
theorem C3_total_conservation (cs : List Candidate) (vs : List OnlineVote)
    (ps : List PhysicalVote)
    (hnd : (cs.map (fun c => c.id)).Nodup)
    (hne : ¬ "" ∈ cs.map (fun c => c.id)) :
    ((fetchResults (some cs) (some vs) (some ps)).map
        (fun pr => pr.totalVotes)).sum =
      vs.countP (fun v => match v.candidate_id with
        | some cid => decide (cid ∈ cs.map (fun c => c.id))
        | none => false) +
      (ps.map (resolvedEntries cs)).sum := by
  have hcp : vs.countP (fun v => match v.candidate_id with
      | some cid => decide (cid ∈ cs.map (fun c => c.id))
      | none => false) = vs.countP (onlineResolves cs) := by
    apply List.countP_congr
    intro v _
    rcases hv : v.candidate_id with _ | cid
    · simp [onlineResolves, hv]
    · by_cases hm : cid ∈ cs.map (fun c => c.id)
      · have hcne : ¬ cid = "" := fun h => hne (h ▸ hm)
        simp [onlineResolves, hv, hm, hcne]
      · simp [onlineResolves, hv, hm]
  by_cases hcs : cs = []
  · subst hcs
    have h1 : fetchResults (some ([] : List Candidate)) (some vs) (some ps) =
        [] := rfl
    rw [h1, hcp]
    have h2 : vs.countP (onlineResolves []) = 0 := by
      rw [List.countP_eq_zero]
      intro v _
      rcases hv : v.candidate_id with _ | cid <;> simp [onlineResolves, hv]
    have h3 : (ps.map (resolvedEntries [])).sum = 0 := by
      apply List.sum_eq_zero
      intro x hx
      rcases List.mem_map.mp hx with ⟨pv, _, hpx⟩
      rw [← hpx]
      rcases hpv : pv.votes with _ | payload
      · simp [resolvedEntries, hpv]
      · rcases payload with _ | es
        · simp [resolvedEntries, hpv]
        · simp only [resolvedEntries, hpv]
          rw [List.countP_eq_zero]
          intro e _
          simp [physEntryResolves, candidateIdMap, mapGet]
    simp [h2, h3]
  · rw [fetchResults_eq cs (some vs) (some ps) hcs, hcp, List.map_map]
    have hcov : ∀ c ∈ cs, c.position ∈
        dedupFirst (cs.map (fun c => c.position)) := fun c hc =>
      (mem_dedupFirst _ _).mpr (List.mem_map_of_mem _ hc)
    have hmapeq : (dedupFirst (cs.map (fun c => c.position))).map
        ((fun pr => pr.totalVotes) ∘ positionResult cs
          (getFinalVoteCounts (some cs) (some vs) (some ps)).voteCounts) =
        (dedupFirst (cs.map (fun c => c.position))).map (fun pos =>
          ((cs.filter (fun c => decide (c.position = pos))).map
            (fun c => (mapGet (getFinalVoteCounts (some cs) (some vs)
              (some ps)).voteCounts c.id).getD 0)).sum) := by
      apply List.map_congr_left
      intro pos _
      simp only [Function.comp]
      rw [positionResult_totalVotes]
      rfl
    rw [hmapeq, sum_over_positions _ _ _ (dedupFirst_nodup _) hcov]
    have hsc : (cs.map (fun c => (mapGet (getFinalVoteCounts (some cs)
        (some vs) (some ps)).voteCounts c.id).getD 0)).sum =
        sumCounts cs (getFinalVoteCounts (some cs) (some vs)
          (some ps)).voteCounts := rfl
    rw [hsc, getFinalVoteCounts_voteCounts,
      sumCounts_countPhysicalVotes cs ps hnd,
      sumCounts_countOnlineVotes cs vs hnd, sumCounts_init]
    omega

/-- C3 witness: three candidates over two positions, three valid ballots,
one ghost ballot, one resolving physical record, one malformed record. -/
theorem C3_total_conservation_witness :
    ((fetchResults (some [candA, candB, candC])
        (some [{ candidate_id := some "1" }, { candidate_id := some "1" },
          { candidate_id := some "2" }, { candidate_id := some "ghost" }])
        (some [{ votes := some (PhysPayload.decodable
            [("Pres", "B"), ("VP", "Ghost")]) },
          { votes := some PhysPayload.malformed }])).map
        (fun pr => pr.totalVotes)).sum =
      ([{ candidate_id := some "1" }, { candidate_id := some "1" },
        { candidate_id := some "2" },
        { candidate_id := some "ghost" }] : List OnlineVote).countP
        (fun v => match v.candidate_id with
          | some cid => decide (cid ∈
              ([candA, candB, candC].map (fun c => c.id)))
          | none => false) +
      (([{ votes := some (PhysPayload.decodable
          [("Pres", "B"), ("VP", "Ghost")]) },
        { votes := some PhysPayload.malformed }] : List PhysicalVote).map
        (resolvedEntries [candA, candB, candC])).sum :=
  C3_total_conservation [candA, candB, candC]
    [{ candidate_id := some "1" }, { candidate_id := some "1" },
      { candidate_id := some "2" }, { candidate_id := some "ghost" }]
    [{ votes := some (PhysPayload.decodable
        [("Pres", "B"), ("VP", "Ghost")]) },
      { votes := some PhysPayload.malformed }]
    (by decide) (by decide)

theorem countP_mono_pred {α : Type} (p q : α → Bool) (l : List α)
    (h : ∀ x ∈ l, p x = true → q x = true) : l.countP p ≤ l.countP q := by
  induction l with
  | nil => simp
  | cons a t ih =>
      rw [List.countP_cons, List.countP_cons]
      have ht := ih (fun x hx => h x (by simp [hx]))
      by_cases hp : p a
      · rw [h a (by simp) hp, hp]
        omega
      · have : (if p a = true then 1 else 0) = 0 := by simp [hp]
        rw [this]
        omega

theorem countP_votes_assignRanksAux (lv : Int) (cr idx : Nat)
    (l : List ResultCandidate) (p : Nat → Bool) :
    (assignRanksAux lv cr idx l).countP (fun d => p d.votes) =
      l.countP (fun d => p d.votes) := by
  induction l generalizing lv cr idx with
  | nil => rfl
  | cons c rest ih =>
      simp only [assignRanksAux]
      by_cases h : (c.votes : Int) = lv
      · rw [if_pos h, List.countP_cons, List.countP_cons, ih]
      · rw [if_neg h, List.countP_cons, List.countP_cons, ih]

theorem countP_map_pres (f : ResultCandidate → ResultCandidate)
    (p : ResultCandidate → Bool) (hp : ∀ c, p (f c) = p c)
    (l : List ResultCandidate) : (l.map f).countP p = l.countP p := by
  induction l with
  | nil => rfl
  | cons c t ih => simp [List.countP_cons, hp, ih]

theorem countP_lt_markTies (l : List ResultCandidate) (x : Nat) :
    (markTies l).countP (fun d => decide (x < d.votes)) =
      l.countP (fun d => decide (x < d.votes)) := by
  rw [markTies]
  apply countP_map_pres
  intro c
  rfl

theorem countP_lt_assignRanks (l : List ResultCandidate) (x : Nat) :
    (assignRanks l).countP (fun d => decide (x < d.votes)) =
      l.countP (fun d => decide (x < d.votes)) :=
  countP_votes_assignRanksAux (-1) 0 0 l (fun v => decide (x < v))

theorem countP_eq_markTies (l : List ResultCandidate) (x : Nat) :
    (markTies l).countP (fun d => decide (d.votes = x)) =
      l.countP (fun d => decide (d.votes = x)) := by
  rw [markTies]
  apply countP_map_pres
  intro c
  rfl

theorem mem_markTies (l : List ResultCandidate) (c : ResultCandidate)
    (h : c ∈ markTies l) :
    ∃ d ∈ l, c.votes = d.votes ∧ c.rank = d.rank := by
  rw [markTies] at h
  rcases List.mem_map.mp h with ⟨d, hd, hdc⟩
  exact ⟨d, hd, by rw [← hdc], by rw [← hdc]⟩

theorem pairwise_rank_markTies (l : List ResultCandidate)
    (h : l.Pairwise (fun a b => a.rank ≤ b.rank)) :
    (markTies l).Pairwise (fun a b => a.rank ≤ b.rank) := by
  rw [markTies, List.pairwise_map]
  exact h

/-- C4: in every emitted position result, each candidate's rank equals one
plus the number of candidates of that position with strictly more votes
(standard competition ranking); candidates with equal counts receive equal
ranks; and rank is non-decreasing walking down the emitted (sorted) list. -/
theorem C4_competition_ranks (candidatesData : Option (List Candidate))
    (ov : Option (List OnlineVote)) (pvs : Option (List PhysicalVote))
    (pr : PositionResult) (hpr : pr ∈ fetchResults candidatesData ov pvs) :
    (∀ c ∈ pr.candidates, c.rank =
      1 + pr.candidates.countP (fun d => decide (c.votes < d.votes))) ∧
    (∀ c ∈ pr.candidates, ∀ d ∈ pr.candidates,
      c.votes = d.votes → c.rank = d.rank) ∧
    pr.candidates.Pairwise (fun a b => a.rank ≤ b.rank) := by
  rcases candidatesData with _ | cs
  · rw [(rfl : fetchResults none ov pvs = [])] at hpr
    exact absurd hpr (List.not_mem_nil pr)
  by_cases hcs : cs = []
  · subst hcs
    rw [(rfl : fetchResults (some ([] : List Candidate)) ov pvs = [])] at hpr
    exact absurd hpr (List.not_mem_nil pr)
  rw [fetchResults_eq cs ov pvs hcs] at hpr
  rcases List.mem_map.mp hpr with ⟨pos, _, hpr'⟩
  have hs := sortByVotesDesc_pairwise (positionSortInput cs
    ((getFinalVoteCounts (some cs) ov pvs).voteCounts) pos)
  generalize hsl : sortByVotesDesc (positionSortInput cs
    ((getFinalVoteCounts (some cs) ov pvs).voteCounts) pos) = s at hs
  have hcand : pr.candidates = markTies (assignRanks s) := by
    rw [← hpr', ← hsl]
    rfl
  have hrank_mem : ∀ c ∈ pr.candidates,
      c.rank = 1 + s.countP (fun e => decide (c.votes < e.votes)) := by
    intro c hc
    rw [hcand] at hc
    rcases mem_markTies _ _ hc with ⟨d, hd, hvcd, hrcd⟩
    rw [assignRanks_closed _ hs] at hd
    rcases List.mem_map.mp hd with ⟨d', _, hdd⟩
    have hdr : d.rank =
        1 + s.countP (fun e => decide (d'.votes < e.votes)) := by
      rw [← hdd]
    have hdv : d.votes = d'.votes := by rw [← hdd]
    rw [hrcd, hdr, hvcd, hdv]
  refine ⟨?_, ?_, ?_⟩
  · intro c hc
    rw [hrank_mem c hc, hcand, countP_lt_markTies, countP_lt_assignRanks]
  · intro c hc d hd hvd
    rw [hrank_mem c hc, hrank_mem d hd, hvd]
  · rw [hcand]
    apply pairwise_rank_markTies
    rw [assignRanks_closed _ hs, List.pairwise_map]
    refine List.Pairwise.imp ?_ hs
    intro a b hab
    have hcp := countP_mono_pred (fun d => decide (a.votes < d.votes))
      (fun d => decide (b.votes < d.votes)) s
      (fun x _ hx => by
        simp only [decide_eq_true_eq] at hx ⊢
        omega)
    show 1 + s.countP (fun d => decide (a.votes < d.votes)) ≤
      1 + s.countP (fun d => decide (b.votes < d.votes))
    omega

/-- C4 witness: two no-vote candidates for "Pres" both get rank 1 and rank
equals one plus the number of strictly-better candidates. -/
theorem C4_competition_ranks_witness :
    (ResultCandidate.mk "1" "A" "Pres" 0 0 1 false).rank =
      1 + (PositionResult.mk "Pres" 0
        [ResultCandidate.mk "1" "A" "Pres" 0 0 1 false,
          ResultCandidate.mk "2" "B" "Pres" 0 0 1 false]).candidates.countP
        (fun d => decide
          ((ResultCandidate.mk "1" "A" "Pres" 0 0 1 false).votes <
            d.votes)) :=
  (C4_competition_ranks (some [candA, candB]) (some []) (some [])
    (PositionResult.mk "Pres" 0
      [ResultCandidate.mk "1" "A" "Pres" 0 0 1 false,
        ResultCandidate.mk "2" "B" "Pres" 0 0 1 false])
    (by
      rw [fetchResults_eq _ _ _ (by decide)]
      have hd : dedupFirst ([candA, candB].map (fun c => c.position)) =
          ["Pres"] := by
        rw [candA, candB]
        simp only [List.map_cons, List.map_nil]
        rw [dedupFirst.eq_def]
        simp
        rw [dedupFirst.eq_def]
      rw [hd]
      simp only [List.map_cons, List.map_nil, List.mem_singleton]
      decide)).1
    (ResultCandidate.mk "1" "A" "Pres" 0 0 1 false) (by decide)

theorem mem_markTies_isTied (l : List ResultCandidate) (c : ResultCandidate)
    (h : c ∈ markTies l) :
    ∃ d ∈ l, c.votes = d.votes ∧
      c.isTied = decide
        (1 < (l.filter (fun o => decide (o.votes = d.votes))).length ∧
          0 < d.votes) := by
  rw [markTies] at h
  rcases List.mem_map.mp h with ⟨d, hd, hdc⟩
  exact ⟨d, hd, by rw [← hdc], by rw [← hdc]⟩

/-- C5: in every emitted position result, a candidate's isTied flag is set
iff at least two of the position's candidates share its vote count and that
count is positive; a unique count, or a shared count of zero, is never
flagged. -/
theorem C5_isTied (candidatesData : Option (List Candidate))
    (ov : Option (List OnlineVote)) (pvs : Option (List PhysicalVote))
    (pr : PositionResult) (hpr : pr ∈ fetchResults candidatesData ov pvs)
    (c : ResultCandidate) (hc : c ∈ pr.candidates) :
    c.isTied = true ↔
      (2 ≤ (pr.candidates.filter
          (fun o => decide (o.votes = c.votes))).length ∧
        0 < c.votes) := by
  rcases candidatesData with _ | cs
  · rw [(rfl : fetchResults none ov pvs = [])] at hpr
    exact absurd hpr (List.not_mem_nil pr)
  by_cases hcs : cs = []
  · subst hcs
    rw [(rfl : fetchResults (some ([] : List Candidate)) ov pvs = [])] at hpr
    exact absurd hpr (List.not_mem_nil pr)
  rw [fetchResults_eq cs ov pvs hcs] at hpr
  rcases List.mem_map.mp hpr with ⟨pos, _, hpr'⟩
  have hcand : pr.candidates = markTies (assignRanks
      (sortByVotesDesc (positionSortInput cs
        ((getFinalVoteCounts (some cs) ov pvs).voteCounts) pos))) := by
    rw [← hpr']
    rfl
  generalize hsl : sortByVotesDesc (positionSortInput cs
    ((getFinalVoteCounts (some cs) ov pvs).voteCounts) pos) = s at hcand
  rw [hcand] at hc
  rcases mem_markTies_isTied _ _ hc with ⟨d, hd, hvcd, htie⟩
  have hlen : ((markTies (assignRanks s)).filter
      (fun o => decide (o.votes = d.votes))).length =
      ((assignRanks s).filter (fun o => decide (o.votes = d.votes))).length := by
    rw [← List.countP_eq_length_filter, ← List.countP_eq_length_filter,
      countP_eq_markTies]
  rw [htie, decide_eq_true_eq, hvcd, hcand, hlen]
  exact Iff.rfl

/-- C5 witness: A and B share a count of zero; the zero-zero tie is not
flagged, in agreement with the two-sharers-and-positive characterisation. -/
theorem C5_isTied_witness :
    (ResultCandidate.mk "1" "A" "Pres" 0 0 1 false).isTied = true ↔
      (2 ≤ ((PositionResult.mk "Pres" 0
          [ResultCandidate.mk "1" "A" "Pres" 0 0 1 false,
            ResultCandidate.mk "2" "B" "Pres" 0 0 1 false]).candidates.filter
          (fun o => decide (o.votes =
            (ResultCandidate.mk "1" "A" "Pres" 0 0 1 false).votes))).length ∧
        0 < (ResultCandidate.mk "1" "A" "Pres" 0 0 1 false).votes) :=
  C5_isTied (some [candA, candB]) (some []) (some [])
    (PositionResult.mk "Pres" 0
      [ResultCandidate.mk "1" "A" "Pres" 0 0 1 false,
        ResultCandidate.mk "2" "B" "Pres" 0 0 1 false])
    (by
      rw [fetchResults_eq _ _ _ (by decide)]
      have hd : dedupFirst ([candA, candB].map (fun c => c.position)) =
          ["Pres"] := by
        rw [candA, candB]
        simp only [List.map_cons, List.map_nil]
        rw [dedupFirst.eq_def]
        simp
        rw [dedupFirst.eq_def]
      rw [hd]
      simp only [List.map_cons, List.map_nil, List.mem_singleton]
      decide)
    (ResultCandidate.mk "1" "A" "Pres" 0 0 1 false) (by decide)

/-- C7: with both ballot sources empty every candidate's count is 0 and
every emitted candidate has 0 votes and percentage 0, with no division
attempted; and in general each emitted percentage equals
`(votes / positionTotal) * 100` when the position's total is positive and
`0` when it is zero. -/
theorem C7_zero_and_percentage (cs : List Candidate) (c : Candidate)
    (hc : c ∈ cs)
    (pr0 : PositionResult)
    (hpr0 : pr0 ∈ fetchResults (some cs) (some []) (some []))
    (rc0 : ResultCandidate) (hrc0 : rc0 ∈ pr0.candidates)
    (candidatesData : Option (List Candidate))
    (ov : Option (List OnlineVote)) (pvs : Option (List PhysicalVote))
    (pr : PositionResult) (hpr : pr ∈ fetchResults candidatesData ov pvs)
    (rc : ResultCandidate) (hrc : rc ∈ pr.candidates) :
    mapGet ((getFinalVoteCounts (some cs) (some []) (some [])).voteCounts)
        c.id = some 0 ∧
    pr0.totalVotes = 0 ∧ rc0.votes = 0 ∧ rc0.percentage = 0 ∧
    rc.percentage = (if 0 < pr.totalVotes then
      ((rc.votes : ℚ) / (pr.totalVotes : ℚ)) * 100 else 0) := by
  have hcs : ¬ cs = [] := by
    intro h
    subst h
    simp at hc
  have h0 : (getFinalVoteCounts (some cs) (some []) (some [])).voteCounts =
      initVoteCounts cs := rfl
  have hzero : ∀ l : List Candidate, (∀ x ∈ l, x ∈ cs) →
      sumCounts l (initVoteCounts cs) = 0 := by
    intro l hl
    rw [sumCounts]
    apply List.sum_eq_zero
    intro x hx
    rcases List.mem_map.mp hx with ⟨c', hc', hcx⟩
    rw [← hcx, mapGet_initVoteCounts,
      if_pos (List.mem_map_of_mem _ (hl c' hc'))]
    rfl
  -- decompose pr0
  rw [fetchResults_eq cs (some []) (some []) hcs] at hpr0
  rcases List.mem_map.mp hpr0 with ⟨pos0, _, hpr0'⟩
  have htv0 : pr0.totalVotes = 0 := by
    rw [← hpr0', positionResult_totalVotes, h0]
    exact hzero _ (fun x hx => (List.mem_filter.mp hx).1)
  have hrc0' : rc0 ∈ (positionResult cs
      ((getFinalVoteCounts (some cs) (some []) (some [])).voteCounts)
      pos0).candidates := by
    rw [hpr0']
    exact hrc0
  rcases mem_positionResult_candidates _ _ _ _ hrc0' with
    ⟨c0, hc0, _, _, _, hv0, hp0⟩
  have hv0z : rc0.votes = 0 := by
    rw [hv0, h0, mapGet_initVoteCounts,
      if_pos (List.mem_map_of_mem _ (List.mem_filter.mp hc0).1)]
    rfl
  have htotz : positionTotal cs ((getFinalVoteCounts (some cs) (some [])
      (some [])).voteCounts) pos0 = 0 := by
    have := htv0
    rw [← hpr0'] at this
    exact this
  have hp0z : rc0.percentage = 0 := by
    rw [hp0, htotz]
    simp
  -- decompose pr (general inputs)
  rcases candidatesData with _ | cs'
  · rw [(rfl : fetchResults none ov pvs = [])] at hpr
    exact absurd hpr (List.not_mem_nil pr)
  by_cases hcs' : cs' = []
  · subst hcs'
    rw [(rfl : fetchResults (some ([] : List Candidate)) ov pvs = [])] at hpr
    exact absurd hpr (List.not_mem_nil pr)
  rw [fetchResults_eq cs' ov pvs hcs'] at hpr
  rcases List.mem_map.mp hpr with ⟨pos, _, hpr'⟩
  have hrc' : rc ∈ (positionResult cs'
      ((getFinalVoteCounts (some cs') ov pvs).voteCounts) pos).candidates := by
    rw [hpr']
    exact hrc
  rcases mem_positionResult_candidates _ _ _ _ hrc' with
    ⟨c1, _, _, _, _, hv1, hp1⟩
  have htv : pr.totalVotes = positionTotal cs'
      ((getFinalVoteCounts (some cs') ov pvs).voteCounts) pos := by
    rw [← hpr']
    rfl
  refine ⟨?_, htv0, hv0z, hp0z, ?_⟩
  · rw [h0, mapGet_initVoteCounts, if_pos (List.mem_map_of_mem _ hc)]
  · rw [hp1, htv, ← hv1]

/-- C7 witness: two candidates and no ballots at all. -/
theorem C7_zero_and_percentage_witness :
    mapGet ((getFinalVoteCounts (some [candA, candB]) (some [])
        (some [])).voteCounts) candA.id = some 0 ∧
    (PositionResult.mk "Pres" 0
      [ResultCandidate.mk "1" "A" "Pres" 0 0 1 false,
        ResultCandidate.mk "2" "B" "Pres" 0 0 1 false]).totalVotes = 0 ∧
    (ResultCandidate.mk "1" "A" "Pres" 0 0 1 false).votes = 0 ∧
    (ResultCandidate.mk "1" "A" "Pres" 0 0 1 false).percentage = 0 ∧
    (ResultCandidate.mk "1" "A" "Pres" 0 0 1 false).percentage =
      (if 0 < (PositionResult.mk "Pres" 0
          [ResultCandidate.mk "1" "A" "Pres" 0 0 1 false,
            ResultCandidate.mk "2" "B" "Pres" 0 0 1 false]).totalVotes then
        (((ResultCandidate.mk "1" "A" "Pres" 0 0 1 false).votes : ℚ) /
          ((PositionResult.mk "Pres" 0
            [ResultCandidate.mk "1" "A" "Pres" 0 0 1 false,
              ResultCandidate.mk "2" "B" "Pres" 0 0 1 false]).totalVotes : ℚ))
          * 100
      else 0) := by
  have hm : (PositionResult.mk "Pres" 0
      [ResultCandidate.mk "1" "A" "Pres" 0 0 1 false,
        ResultCandidate.mk "2" "B" "Pres" 0 0 1 false]) ∈
      fetchResults (some [candA, candB]) (some []) (some []) := by
    rw [fetchResults_eq _ _ _ (by decide)]
    have hd : dedupFirst ([candA, candB].map (fun c => c.position)) =
        ["Pres"] := by
      rw [candA, candB]
      simp only [List.map_cons, List.map_nil]
      rw [dedupFirst.eq_def]
      simp
      rw [dedupFirst.eq_def]
    rw [hd]
    simp only [List.map_cons, List.map_nil, List.mem_singleton]
    decide
  exact C7_zero_and_percentage [candA, candB] candA (by decide)
    (PositionResult.mk "Pres" 0
      [ResultCandidate.mk "1" "A" "Pres" 0 0 1 false,
        ResultCandidate.mk "2" "B" "Pres" 0 0 1 false]) hm
    (ResultCandidate.mk "1" "A" "Pres" 0 0 1 false) (by decide)
    (some [candA, candB]) (some []) (some [])
    (PositionResult.mk "Pres" 0
      [ResultCandidate.mk "1" "A" "Pres" 0 0 1 false,
        ResultCandidate.mk "2" "B" "Pres" 0 0 1 false]) hm
    (ResultCandidate.mk "1" "A" "Pres" 0 0 1 false) (by decide)

theorem map_eraseRT_markTies (l : List ResultCandidate) :
    (markTies l).map (fun c => { c with rank := 0, isTied := false }) =
      l.map (fun c => { c with rank := 0, isTied := false }) := by
  rw [markTies, List.map_map]
  rfl

theorem map_eraseRT_assignRanksAux (lv : Int) (cr idx : Nat)
    (l : List ResultCandidate) :
    (assignRanksAux lv cr idx l).map
        (fun c => { c with rank := 0, isTied := false }) =
      l.map (fun c => { c with rank := 0, isTied := false }) := by
  induction l generalizing lv cr idx with
  | nil => rfl
  | cons c rest ih =>
      simp only [assignRanksAux]
      by_cases h : (c.votes : Int) = lv
      · rw [if_pos h]
        simp only [List.map_cons, ih]
      · rw [if_neg h]
        simp only [List.map_cons, ih]

theorem map_eraseRT_assignRanks (l : List ResultCandidate) :
    (assignRanks l).map (fun c => { c with rank := 0, isTied := false }) =
      l.map (fun c => { c with rank := 0, isTied := false }) :=
  map_eraseRT_assignRanksAux (-1) 0 0 l

theorem map_eraseRT_positionSortInput (cs : List Candidate)
    (m : List (String × Nat)) (pos : String) :
    (positionSortInput cs m pos).map
        (fun c => { c with rank := 0, isTied := false }) =
      positionSortInput cs m pos := by
  rw [positionSortInput, List.map_map]
  rfl

theorem pairwise_votes_markTies (l : List ResultCandidate)
    (h : l.Pairwise (fun a b => b.votes ≤ a.votes)) :
    (markTies l).Pairwise (fun a b => b.votes ≤ a.votes) := by
  rw [markTies, List.pairwise_map]
  exact h

/-- C8: `fetchResults` emits one result per distinct position, in order of
each position's first appearance in the candidate list (the emitted position
names are duplicate-free, are exactly the occurring positions, and are
sorted by first-occurrence index); within each position the candidates are
ordered by weakly descending vote count, and for every vote value the
candidates carrying it appear in their original candidate-list order —
the sort is stable, with rank and tie flags the only added data. -/
theorem C8_grouping_and_stable_sort (cs : List Candidate)
    (ov : Option (List OnlineVote)) (pvs : Option (List PhysicalVote)) :
    (fetchResults (some cs) ov pvs).map (fun pr => pr.position) =
      dedupFirst (cs.map (fun c => c.position)) ∧
    ((fetchResults (some cs) ov pvs).map (fun pr => pr.position)).Nodup ∧
    (∀ p, p ∈ (fetchResults (some cs) ov pvs).map (fun pr => pr.position) ↔
      p ∈ cs.map (fun c => c.position)) ∧
    ((fetchResults (some cs) ov pvs).map (fun pr => pr.position)).Pairwise
      (fun p q => firstIdx p (cs.map (fun c => c.position)) <
        firstIdx q (cs.map (fun c => c.position))) ∧
    (∀ pr ∈ fetchResults (some cs) ov pvs,
      pr.candidates.Pairwise (fun a b => b.votes ≤ a.votes)) ∧
    (∀ pr ∈ fetchResults (some cs) ov pvs, ∀ v : Nat,
      (pr.candidates.filter (fun d => decide (d.votes = v))).map
        (fun c => { c with rank := 0, isTied := false }) =
      (positionSortInput cs
        ((getFinalVoteCounts (some cs) ov pvs).voteCounts)
        pr.position).filter (fun d => decide (d.votes = v))) := by
  have hpos : (fetchResults (some cs) ov pvs).map (fun pr => pr.position) =
      dedupFirst (cs.map (fun c => c.position)) := by
    by_cases hcs : cs = []
    · subst hcs
      have hnil : fetchResults (some ([] : List Candidate)) ov pvs = [] := rfl
      rw [hnil, dedupFirst.eq_def]
      simp
    · rw [fetchResults_eq cs ov pvs hcs, List.map_map]
      exact (List.map_congr_left (fun pos _ => rfl)).trans (List.map_id' _)
  refine ⟨hpos, ?_, ?_, ?_, ?_, ?_⟩
  · rw [hpos]
    exact dedupFirst_nodup _
  · intro p
    rw [hpos]
    exact mem_dedupFirst _ p
  · rw [hpos]
    exact dedupFirst_pairwise_firstIdx _
  · intro pr hpr
    by_cases hcs : cs = []
    · subst hcs
      rw [(rfl : fetchResults (some ([] : List Candidate)) ov pvs = [])]
        at hpr
      exact absurd hpr (List.not_mem_nil pr)
    rw [fetchResults_eq cs ov pvs hcs] at hpr
    rcases List.mem_map.mp hpr with ⟨pos, _, hpr'⟩
    have hcand : pr.candidates = markTies (assignRanks (sortByVotesDesc
        (positionSortInput cs
          ((getFinalVoteCounts (some cs) ov pvs).voteCounts) pos))) := by
      rw [← hpr']
      rfl
    rw [hcand]
    apply pairwise_votes_markTies
    have hs := sortByVotesDesc_pairwise (positionSortInput cs
      ((getFinalVoteCounts (some cs) ov pvs).voteCounts) pos)
    rw [assignRanks_closed _ hs, List.pairwise_map]
    exact hs
  · intro pr hpr v
    by_cases hcs : cs = []
    · subst hcs
      rw [(rfl : fetchResults (some ([] : List Candidate)) ov pvs = [])]
        at hpr
      exact absurd hpr (List.not_mem_nil pr)
    rw [fetchResults_eq cs ov pvs hcs] at hpr
    rcases List.mem_map.mp hpr with ⟨pos, _, hpr'⟩
    have hcand : pr.candidates = markTies (assignRanks (sortByVotesDesc
        (positionSortInput cs
          ((getFinalVoteCounts (some cs) ov pvs).voteCounts) pos))) := by
      rw [← hpr']
      rfl
    have hppos : pr.position = pos := by
      rw [← hpr']
      rfl
    rw [hcand, hppos,
      ← filter_votes_map (fun c => { c with rank := 0, isTied := false })
        (fun c => rfl),
      map_eraseRT_markTies, map_eraseRT_assignRanks,
      filter_votes_map (fun c => { c with rank := 0, isTied := false })
        (fun c => rfl),
      filter_sortByVotesDesc,
      ← filter_votes_map (fun c => { c with rank := 0, isTied := false })
        (fun c => rfl),
      map_eraseRT_positionSortInput]

/-- C8 witness: with two candidates and no ballots, the zero-vote slice of
the emitted "Pres" list equals the zero-vote slice of the pre-sort input. -/
theorem C8_grouping_and_stable_sort_witness :
    ((PositionResult.mk "Pres" 0
      [ResultCandidate.mk "1" "A" "Pres" 0 0 1 false,
        ResultCandidate.mk "2" "B" "Pres" 0 0 1 false]).candidates.filter
        (fun d => decide (d.votes = 0))).map
      (fun c => { c with rank := 0, isTied := false }) =
    (positionSortInput [candA, candB]
      ((getFinalVoteCounts (some [candA, candB]) (some [])
        (some [])).voteCounts)
      (PositionResult.mk "Pres" 0
        [ResultCandidate.mk "1" "A" "Pres" 0 0 1 false,
          ResultCandidate.mk "2" "B" "Pres" 0 0 1 false]).position).filter
      (fun d => decide (d.votes = 0)) :=
  (C8_grouping_and_stable_sort [candA, candB] (some []) (some [])).2.2.2.2.2
    (PositionResult.mk "Pres" 0
      [ResultCandidate.mk "1" "A" "Pres" 0 0 1 false,
        ResultCandidate.mk "2" "B" "Pres" 0 0 1 false])
    (by
      rw [fetchResults_eq _ _ _ (by decide)]
      have hd : dedupFirst ([candA, candB].map (fun c => c.position)) =
          ["Pres"] := by
        rw [candA, candB]
        simp only [List.map_cons, List.map_nil]
        rw [dedupFirst.eq_def]
        simp
        rw [dedupFirst.eq_def]
      rw [hd]
      simp only [List.map_cons, List.map_nil, List.mem_singleton]
      decide)
    0

/-- A second candidate record with the same (position, name) pair as
`candA` but a different id, for the duplicate-key scenario. -/
def candA2 : Candidate := { id := "2", name := "A", position := "Pres" }

/-- C10: when two candidates share a (position, name) pair, `Map.set` makes
the later record win: the join key resolves to the last matching
candidate's id, a physical entry under that key credits that candidate, and
the earlier duplicate's count is unaffected by any physical-ballot set
(it can never receive a physical vote).  Candidate ids are assumed
duplicate-free (primary key). -/
theorem C10_duplicate_key_last_wins (pre mid post : List Candidate)
    (c₁ c₂ : Candidate)
    (hkey : joinKey c₂.position c₂.name = joinKey c₁.position c₁.name)
    (hpost : ∀ d ∈ post,
      ¬ joinKey d.position d.name = joinKey c₁.position c₁.name)
    (hnd : ((pre ++ c₁ :: mid ++ c₂ :: post).map (fun c => c.id)).Nodup)
    (m : List (String × Nat)) (e : String × String)
    (he : joinKey e.1 e.2 = joinKey c₁.position c₁.name)
    (ov : Option (List OnlineVote)) (ps : List PhysicalVote) :
    mapGet (candidateIdMap (pre ++ c₁ :: mid ++ c₂ :: post))
        (joinKey c₁.position c₁.name) = some c₂.id ∧
    countPhysEntry (candidateIdMap (pre ++ c₁ :: mid ++ c₂ :: post)) m e =
      mapSet m c₂.id ((mapGet m c₂.id).getD 0 + 1) ∧
    mapGet ((getFinalVoteCounts (some (pre ++ c₁ :: mid ++ c₂ :: post)) ov
        (some ps)).voteCounts) c₁.id =
      mapGet ((getFinalVoteCounts (some (pre ++ c₁ :: mid ++ c₂ :: post)) ov
        (some [])).voteCounts) c₁.id := by
  have hrev : (pre ++ c₁ :: mid ++ c₂ :: post).reverse =
      post.reverse ++ c₂ :: (mid.reverse ++ c₁ :: pre.reverse) := by
    simp
  have hfpost : post.reverse.find?
      (fun c => decide (joinKey c.position c.name =
        joinKey c₁.position c₁.name)) = none := by
    rw [List.find?_eq_none]
    intro x hx
    simpa using hpost x (List.mem_reverse.mp hx)
  have ha : mapGet (candidateIdMap (pre ++ c₁ :: mid ++ c₂ :: post))
      (joinKey c₁.position c₁.name) = some c₂.id := by
    rw [mapGet_candidateIdMap, hrev, find?_append, hfpost,
      List.find?_cons_of_pos _ (by simp [hkey])]
  have hc1mem : c₁ ∈ pre ++ c₁ :: mid ++ c₂ :: post := by simp
  have hne_ids : ¬ c₁.id = c₂.id := by
    intro hid
    have h := hnd
    simp only [List.map_append, List.map_cons] at h
    have hdisj := (List.nodup_append.mp h).2.2
    exact hdisj (a := c₁.id) (by simp) (by rw [hid]; simp)
  have hnever : ∀ k, ¬ mapGet (candidateIdMap
      (pre ++ c₁ :: mid ++ c₂ :: post)) k = some c₁.id := by
    intro k hk
    have hk' := hk
    rw [mapGet_candidateIdMap] at hk'
    rcases hf : (pre ++ c₁ :: mid ++ c₂ :: post).reverse.find?
        (fun c => decide (joinKey c.position c.name = k)) with _ | f
    · rw [hf] at hk'
      exact absurd hk' (by simp)
    · rw [hf] at hk'
      have hfid : f.id = c₁.id := Option.some.inj hk'
      have hfmem : f ∈ pre ++ c₁ :: mid ++ c₂ :: post :=
        List.mem_reverse.mp (List.mem_of_find?_eq_some hf)
      have hfc : f = c₁ :=
        List.inj_on_of_nodup_map hnd hfmem hc1mem hfid
      have hpk : joinKey f.position f.name = k := by
        have := List.find?_some hf
        simpa using this
      rw [hfc] at hpk
      rw [← hpk] at hk
      rw [ha] at hk
      exact hne_ids (Option.some.inj hk).symm
  refine ⟨ha, ?_, ?_⟩
  · simp only [countPhysEntry, he, ha]
  · rw [getFinalVoteCounts_some_phys, getFinalVoteCounts_some_phys]
    show mapGet (countPhysicalVotes
        (candidateIdMap (pre ++ c₁ :: mid ++ c₂ :: post))
        (onlineStage (pre ++ c₁ :: mid ++ c₂ :: post) ov) ps) c₁.id =
      mapGet (countPhysicalVotes
        (candidateIdMap (pre ++ c₁ :: mid ++ c₂ :: post))
        (onlineStage (pre ++ c₁ :: mid ++ c₂ :: post) ov) []) c₁.id
    rw [mapGet_countPhysicalVotes_of_never _ _ hnever ps]
    rfl

/-- C10 witness: "A" is listed twice for "Pres" under ids "1" (first) and
"2" (last); the key resolves to "2", a physical entry for (Pres, A)
increments "2", and one such physical ballot leaves "1" at its
no-physical-ballots count. -/
theorem C10_duplicate_key_last_wins_witness :
    mapGet (candidateIdMap ([] ++ candA :: [] ++ candA2 :: []))
        (joinKey candA.position candA.name) = some candA2.id ∧
    countPhysEntry (candidateIdMap ([] ++ candA :: [] ++ candA2 :: []))
        [] ("Pres", "A") =
      mapSet [] candA2.id ((mapGet [] candA2.id).getD 0 + 1) ∧
    mapGet ((getFinalVoteCounts (some ([] ++ candA :: [] ++ candA2 :: []))
        (some [])
        (some [{ votes := some (PhysPayload.decodable
          [("Pres", "A")]) }])).voteCounts) candA.id =
      mapGet ((getFinalVoteCounts (some ([] ++ candA :: [] ++ candA2 :: []))
        (some []) (some [])).voteCounts) candA.id :=
  C10_duplicate_key_last_wins [] [] [] candA candA2 rfl
    (by simp) (by decide) [] ("Pres", "A") rfl (some [])
    [{ votes := some (PhysPayload.decodable [("Pres", "A")]) }]

end Voting
